import Mathlib

/-!
# Verification of the buf file-set resolution engine

Shallow embedding of `bufbuild`'s provider (`GetProtoFileSetForBucket` and
`GetProtoFileSetForRealFilePaths`) and proofs of the specification's claims
about it.

Paths are modelled as their lists of slash-separated segments: the storage
layer guarantees all real paths are normalized (no `.`/`..` segments, no
empty segments, forward slashes), so a normalized path is faithfully
represented by its segment list.  The virtual read bucket is modelled as the
list of files it contains, in the (deterministic-per-call) order its walk
enumerates them, plus the set of paths on which `Stat` fails with an error
other than not-exists.
-/

set_option maxRecDepth 8000

namespace BufBuild

/-- A normalized slash-separated path, represented as its list of segments. -/
abbrev Path := List String

/-- Errors produced by the resolver.  Each constructor corresponds to one
`fmt.Errorf`/`errors.New` site in the source; the two source sites that share
the format string `"file with path %s is within multiple roots at %v"`
share the constructor `multipleRoots`. -/
inductive BufError where
  | configError : String → BufError
  | normalizeError : Path → BufError
  | relError : Path → Path → BufError
  | noRealFilePath : Path → BufError
  | multipleRoots : Path → List Path → BufError
  | noFilesMatchRoots : BufError
  | noFilesMatchRootsAndExcludes : BufError
  | duplicatePath : Path → BufError
  | statFailure : Path → BufError
  | notExist : Path → BufError
  | notWithinAnyRoot : Path → List Path → BufError
  | withinAnotherRoot : Path → Path → Path → BufError
  | noInputFilesSpecified : BufError
  deriving DecidableEq, Repr

/-- Modelled from the spec (§3): a segment of a normalized path is nonempty
and is not a `.` or `..` indirection. -/
def validSegment (s : String) : Bool :=
  !(s = "" || s = "." || s = "..")

/-- Modelled from the spec (§3): a normalized, validated path is a nonempty
list of valid segments.  (`storagepath.NormalizeAndValidate` is not under
`src/`; on already-normalized input it is the identity, and this predicate
captures which segment lists are already normalized.) -/
def validPath (p : Path) : Bool :=
  !p.isEmpty && p.all validSegment

/-- Modelled from the spec (§2 Path Utilities): `underPath d p` holds when
`p` is `d` itself or a descendant of `d`; segment-wise prefix matching. -/
def underPath : Path → Path → Bool
  | [], _ => true
  | _ :: _, [] => false
  | d :: ds, s :: ss => if d = s then underPath ds ss else false

/-- Modelled from the spec: `storagepath.NormalizeAndValidate` on
already-normalized input accepts the path unchanged and rejects anything
that is not normalized. -/
def normalizeAndValidate (p : Path) : Except BufError Path :=
  if validPath p then .ok p else .error (.normalizeError p)

/-- Modelled from the spec (§2 Path Utilities, "computing relative paths
between a root and a descendant"): `storagepath.Rel` for the descendant case
strips the root's segments. -/
def rel (root p : Path) : Except BufError Path :=
  if underPath root p then .ok (p.drop root.length) else .error (.relError root p)

/-- On the reversed character list of a segment: the characters up to and
including the first `.`, or `[]` when there is no `.`. -/
def extRev : List Char → List Char
  | [] => []
  | c :: rest =>
    if c = '.' then [c]
    else
      match extRev rest with
      | [] => []
      | r => c :: r

/-- The extension of a single path segment: the suffix starting at the last
dot, or `""` when the segment has no dot. -/
def segmentExt (s : String) : String :=
  String.mk ((extRev s.toList.reverse).reverse)

/-- Modelled from the spec (§4.2, recognized schema extension predicate):
`storagepath.Ext`, the extension of the final segment of a path. -/
def Ext (p : Path) : String :=
  match p.getLast? with
  | none => ""
  | some s => segmentExt s

/-- Modelled from the spec: `storagepath.Dir`, the containing directory of a
path (all segments but the last). -/
def dirPath (p : Path) : Path :=
  p.dropLast

/-- Lexicographic comparison of paths, mirroring `sort.Strings` on the
slash-joined forms (segment-wise, with the string order on segments). -/
def pathLe : Path → Path → Bool
  | [], _ => true
  | _ :: _, [] => false
  | a :: as, b :: bs => if a = b then pathLe as bs else decide (a < b)

/-- Insertion into a `pathLe`-sorted list. -/
def insertSorted (p : Path) : List Path → List Path
  | [] => [p]
  | q :: rest => if pathLe p q then p :: q :: rest else q :: insertSorted p rest

/-- `sort.Strings`: sort a list of paths lexicographically. -/
def sortPaths : List Path → List Path
  | [] => []
  | p :: rest => insertSorted p (sortPaths rest)

/-- Modelled from the spec: `storagepath.MapContainsMatch` — does any
exclude equal, or lie above, the given path? -/
def containsMatch (excludes : List Path) (p : Path) : Bool :=
  excludes.any (fun e => underPath e p)

/-- The resolution configuration produced by `newConfig`. -/
structure Config where
  Roots : List Path
  Excludes : List Path
  deriving DecidableEq, Repr

/-- Normalize/validate every path of a list, failing on the first invalid
entry. -/
def validateAll : List Path → Except BufError (List Path)
  | [] => .ok []
  | p :: rest =>
    match normalizeAndValidate p with
    | .error e => .error e
    | .ok v =>
      match validateAll rest with
      | .error e => .error e
      | .ok vs => .ok (v :: vs)

/-- Two distinct roots overlap when one is an ancestor of the other. -/
def hasOverlap (roots : List Path) : Bool :=
  roots.any (fun r1 => roots.any (fun r2 => decide (r1 ≠ r2) && underPath r1 r2))

/-- Modelled from the spec (§4.1; `newConfig` is not under `src/`):
normalize and validate the roots, deduplicate them, fail when no root
remains or when two remaining roots overlap, then normalize, validate and
deduplicate the excludes. -/
def newConfig (roots excludes : List Path) : Except BufError Config :=
  match validateAll roots with
  | .error e => .error e
  | .ok vr =>
    let dr := vr.dedup
    if dr.isEmpty then .error (.configError "no roots specified")
    else if hasOverlap dr then .error (.configError "overlapping roots")
    else
      match validateAll excludes with
      | .error e => .error e
      | .ok ve => .ok ⟨dr, ve.dedup⟩

/-- The resolved output artifact: the roots used, and the logical-path →
real-path mapping (an association list in resolution order). -/
structure ProtoFileSet where
  roots : List Path
  mapping : List (Path × Path)
  deriving DecidableEq, Repr

/-- Modelled from the spec (§4.4; `newProtoFileSet` is not under `src/`):
the read-only container over the roots and the final mapping. -/
def newProtoFileSet (roots : List Path) (m : List (Path × Path)) : ProtoFileSet :=
  ⟨roots, m⟩

/-- The virtual read bucket: the files it contains, in walk order, and the
paths on which `Stat` fails with an error other than not-exists. -/
structure Bucket where
  files : List Path
  statFailures : List Path
  deriving DecidableEq, Repr

/-- The accumulation map of the root scan: logical path → distinct real
paths that produced it, in insertion order (`rootFilePathToRealFilePathMap`
in the source). -/
abbrev AccMap := List (Path × List Path)

/-- Insert one (logical path, real path) association: find or create the
key's entry, and add the real path to its set if not present. -/
def accInsert : AccMap → Path → Path → AccMap
  | [], k, v => [(k, [v])]
  | (k', vs) :: rest, k, v =>
    if k' = k then (k', if v ∈ vs then vs else vs ++ [v]) :: rest
    else (k', vs) :: accInsert rest k v

/-- The walk callback of `GetProtoFileSetForBucket` (source lines 46-67):
skip non-`.proto` files, compute the path relative to the root,
re-normalize/re-validate it, and accumulate. -/
def visitFile (root : Path) (acc : AccMap) (realFilePath : Path) : Except BufError AccMap :=
  if Ext realFilePath ≠ ".proto" then .ok acc
  else
    match rel root realFilePath with
    | .error e => .error e
    | .ok rootFilePath =>
      match normalizeAndValidate rootFilePath with
      | .error e => .error e
      | .ok rfp => .ok (accInsert acc rfp realFilePath)

/-- Run the walk callback over a list of files, aborting on the first
error. -/
def walkFiles (root : Path) : List Path → AccMap → Except BufError AccMap
  | [], acc => .ok acc
  | f :: rest, acc =>
    match visitFile root acc f with
    | .error e => .error e
    | .ok acc' => walkFiles root rest acc'

/-- The files the bucket's walk enumerates under a root, in bucket order. -/
def filesUnder (bucket : Bucket) (root : Path) : List Path :=
  bucket.files.filter (fun p => underPath root p)

/-- `bucket.Walk(ctx, root, visit)`: enumerate the files under `root` and
run the visitor on each. -/
def walkRoot (bucket : Bucket) (root : Path) (acc : AccMap) : Except BufError AccMap :=
  walkFiles root (filesUnder bucket root) acc

/-- The root loop of `GetProtoFileSetForBucket` (source lines 41-71). -/
def walkAll (bucket : Bucket) : List Path → AccMap → Except BufError AccMap
  | [], acc => .ok acc
  | r :: rest, acc =>
    match walkRoot bucket r acc with
    | .error e => .error e
    | .ok acc' => walkAll bucket rest acc'

/-- The collapse loop of `GetProtoFileSetForBucket` (source lines 73-89):
each logical path must have exactly one real path; zero is a system error
and two or more is the sorted collision error. -/
def collapse : AccMap → Except BufError (List (Path × Path))
  | [] => .ok []
  | (k, vs) :: rest =>
    match vs with
    | [] => .error (.noRealFilePath k)
    | [v] =>
      match collapse rest with
      | .error e => .error e
      | .ok m => .ok ((k, v) :: m)
    | _ => .error (.multipleRoots k (sortPaths vs))

/-- `GetProtoFileSetForBucket` (source lines 27-109). -/
def getProtoFileSetForBucket (bucket : Bucket) (roots excludes : List Path) :
    Except BufError ProtoFileSet :=
  match newConfig roots excludes with
  | .error e => .error e
  | .ok config =>
    match walkAll bucket config.Roots [] with
    | .error e => .error e
    | .ok accMap =>
      match collapse accMap with
      | .error e => .error e
      | .ok rootFilePathToRealFilePath =>
        if config.Excludes.isEmpty then
          if rootFilePathToRealFilePath.isEmpty then .error .noFilesMatchRoots
          else .ok (newProtoFileSet config.Roots rootFilePathToRealFilePath)
        else
          let filtered := rootFilePathToRealFilePath.filter
            (fun e => !containsMatch config.Excludes (dirPath e.2))
          if filtered.isEmpty then .error .noFilesMatchRootsAndExcludes
          else .ok (newProtoFileSet config.Roots filtered)

/-- The first loop of `GetProtoFileSetForRealFilePaths` (source lines
130-150): normalize/validate each input, fail on duplicates among the
already-recorded paths, stat the path, and record it when it exists.  The
second component of the result is the trace of paths on which `Stat` was
called. -/
def normalizeAndCheck (bucket : Bucket) (allowNotExist : Bool) :
    List Path → List Path → List Path → (Except BufError (List Path)) × List Path
  | [], seen, tr => (.ok seen, tr)
  | p :: rest, seen, tr =>
    match normalizeAndValidate p with
    | .error e => (.error e, tr)
    | .ok np =>
      if np ∈ seen then (.error (.duplicatePath np), tr)
      else if np ∈ bucket.statFailures then (.error (.statFailure np), tr ++ [np])
      else if np ∈ bucket.files then
        normalizeAndCheck bucket allowNotExist rest (seen ++ [np]) (tr ++ [np])
      else if allowNotExist then
        normalizeAndCheck bucket allowNotExist rest seen (tr ++ [np])
      else (.error (.notExist np), tr ++ [np])

/-- Association-list lookup used for `rootFilePathToRealFilePath` in the
explicit-path mode. -/
def lookupPath (k : Path) : List (Path × Path) → Option Path
  | [] => none
  | (k', v) :: rest => if k' = k then some v else lookupPath k rest

/-- `storagepath.MapMatches` restricted to the configured roots: the roots
that equal, or lie above, the given path, in configuration order. -/
def matchingRoots (croots : List Path) (p : Path) : List Path :=
  croots.filter (fun r => underPath r p)

/-- The second loop of `GetProtoFileSetForRealFilePaths` (source lines
152-184): each surviving path must lie under exactly one root; its logical
path must not already be claimed by a different real path. -/
def buildRootFilePathMap (croots : List Path) :
    List Path → List (Path × Path) → Except BufError (List (Path × Path))
  | [], m => .ok m
  | p :: rest, m =>
    match matchingRoots croots p with
    | [] => .error (.notWithinAnyRoot p croots)
    | [r] =>
      match rel r p with
      | .error e => .error e
      | .ok q =>
        match normalizeAndValidate q with
        | .error e => .error e
        | .ok nq =>
          match lookupPath nq m with
          | some other => .error (.withinAnotherRoot p nq other)
          | none => buildRootFilePathMap croots rest (m ++ [(nq, p)])
    | ms => .error (.multipleRoots p (sortPaths ms))

/-- `GetProtoFileSetForRealFilePaths` (source lines 117-190), instrumented
with the trace of paths on which `Stat` was called. -/
def getProtoFileSetForRealFilePaths (bucket : Bucket) (roots realFilePaths : List Path)
    (realFilePathsAllowNotExist : Bool) : (Except BufError ProtoFileSet) × List Path :=
  match newConfig roots [] with
  | .error e => (.error e, [])
  | .ok config =>
    match normalizeAndCheck bucket realFilePathsAllowNotExist realFilePaths [] [] with
    | (.error e, tr) => (.error e, tr)
    | (.ok seen, tr) =>
      match buildRootFilePathMap config.Roots seen [] with
      | .error e => (.error e, tr)
      | .ok m =>
        if m.isEmpty then (.error .noInputFilesSpecified, tr)
        else (.ok (newProtoFileSet config.Roots m), tr)

/-- A list of paths is sorted when each element is `pathLe` every later
element. -/
def PathsSorted (l : List Path) : Prop :=
  List.Pairwise (fun a b => pathLe a b = true) l

/-- The keys of an accumulation map. -/
def accKeys (acc : AccMap) : List Path :=
  acc.map Prod.fst

/-- `v` is recorded for logical path `k` in the accumulation map. -/
def inAcc (acc : AccMap) (k v : Path) : Prop :=
  ∃ vs, (k, vs) ∈ acc ∧ v ∈ vs

/-- The pure result of walking one root's files when no error occurs. -/
def accumFiles (root : Path) : List Path → AccMap → AccMap
  | [], acc => acc
  | f :: rest, acc =>
    accumFiles root rest
      (if Ext f = ".proto" then accInsert acc (f.drop root.length) f else acc)

/-- The pure result of walking one root of the bucket. -/
def accumRoot (bucket : Bucket) (root : Path) (acc : AccMap) : AccMap :=
  accumFiles root (filesUnder bucket root) acc

/-- The pure result of walking all roots of the bucket. -/
def accumAll (bucket : Bucket) : List Path → AccMap → AccMap
  | [], acc => acc
  | r :: rest, acc => accumAll bucket rest (accumRoot bucket r acc)

/-- Discriminator for the root-scan collision error shape
("file with path %s is within multiple roots at %v"). -/
def isMultipleRootsError : Except BufError ProtoFileSet → Bool
  | .error (.multipleRoots _ _) => true
  | _ => false

/-! ## Path lemmas -/

theorem validPath_iff {p : Path} :
    validPath p = true ↔ p ≠ [] ∧ ∀ s ∈ p, validSegment s = true := by
  simp [validPath, List.isEmpty_iff, List.all_eq_true]

theorem underPath_append (r t : Path) : underPath r (r ++ t) = true := by
  induction r with
  | nil => cases t <;> simp [underPath]
  | cons a as ih => simpa [underPath] using ih

theorem eq_append_of_underPath : ∀ {r p : Path}, underPath r p = true →
    p = r ++ p.drop r.length
  | [], p, _ => by simp
  | a :: as, [], h => by simp [underPath] at h
  | a :: as, b :: bs, h => by
    simp only [underPath] at h
    split at h
    · next heq =>
      subst heq
      simpa using eq_append_of_underPath h
    · exact absurd h (by simp)

theorem drop_append_of_underPath {r t : Path} : (r ++ t).drop r.length = t := by
  simp

theorem underPath_trans : ∀ {a b c : Path}, underPath a b = true →
    underPath b c = true → underPath a c = true
  | [], _, _, _, _ => by cases ‹Path› <;> simp [underPath]
  | a :: as, [], c, h, _ => by simp [underPath] at h
  | a :: as, b :: bs, [], _, h => by simp [underPath] at h
  | a :: as, b :: bs, c :: cs, h₁, h₂ => by
    simp only [underPath] at h₁ h₂ ⊢
    split at h₁
    · next heq =>
      subst heq
      split at h₂
      · next heq2 =>
        subst heq2
        simpa using underPath_trans h₁ h₂
      · exact absurd h₂ (by simp)
    · exact absurd h₁ (by simp)

theorem underPath_comparable : ∀ {d₁ d₂ p : Path}, underPath d₁ p = true →
    underPath d₂ p = true → underPath d₁ d₂ = true ∨ underPath d₂ d₁ = true
  | [], d₂, p, _, _ => by
    cases d₂ <;> simp [underPath]
  | a :: as, [], p, _, _ => by simp [underPath]
  | a :: as, b :: bs, [], h, _ => by simp [underPath] at h
  | a :: as, b :: bs, c :: cs, h₁, h₂ => by
    simp only [underPath] at h₁ h₂ ⊢
    split at h₁
    · next heq =>
      subst heq
      split at h₂
      · next heq2 =>
        subst heq2
        simpa using underPath_comparable h₁ h₂
      · exact absurd h₂ (by simp)
    · exact absurd h₁ (by simp)

theorem length_lt_of_underPath_ne : ∀ {r p : Path}, underPath r p = true → p ≠ r →
    r.length < p.length
  | [], [], h, hne => absurd rfl hne
  | [], b :: bs, _, _ => by simp
  | a :: as, [], h, _ => by simp [underPath] at h
  | a :: as, b :: bs, h, hne => by
    simp only [underPath] at h
    split at h
    · next heq =>
      subst heq
      have : bs ≠ as := fun hh => hne (by rw [hh])
      simpa using length_lt_of_underPath_ne h this
    · exact absurd h (by simp)

theorem validPath_drop {r p : Path} (hv : validPath p = true)
    (hu : underPath r p = true) (hne : p ≠ r) :
    validPath (p.drop r.length) = true := by
  rcases validPath_iff.1 hv with ⟨-, hall⟩
  refine validPath_iff.2 ⟨?_, ?_⟩
  · intro hnil
    have hlen := length_lt_of_underPath_ne hu hne
    have : p.length ≤ r.length := by
      have := congrArg List.length (eq_append_of_underPath hu)
      simp [hnil] at this
      omega
    omega
  · intro s hs
    exact hall s (List.mem_of_mem_drop hs)

theorem underPath_of_eq_append {r t p : Path} (h : p = r ++ t) :
    underPath r p = true := by
  rw [h]; exact underPath_append r t

/-! ## Sorting lemmas -/

theorem pathLe_total : ∀ (a b : Path), pathLe a b = true ∨ pathLe b a = true
  | [], _ => by cases ‹Path› <;> simp [pathLe]
  | a :: as, [] => by simp [pathLe]
  | a :: as, b :: bs => by
    by_cases h : a = b
    · subst h
      simpa [pathLe] using pathLe_total as bs
    · rcases Ne.lt_or_lt h with hlt | hlt
      · left; simp [pathLe, h, hlt]
      · right
        simp [pathLe, Ne.symm h, hlt]

theorem pathLe_trans : ∀ {a b c : Path}, pathLe a b = true → pathLe b c = true →
    pathLe a c = true
  | [], _, _, _, _ => by cases ‹Path› <;> simp [pathLe]
  | a :: as, [], c, h, _ => by simp [pathLe] at h
  | a :: as, b :: bs, [], _, h => by simp [pathLe] at h
  | a :: as, b :: bs, c :: cs, h₁, h₂ => by
    simp only [pathLe] at h₁ h₂ ⊢
    by_cases hab : a = b
    · subst hab
      by_cases hbc : a = c
      · subst hbc
        simp only [if_pos rfl] at h₁ h₂ ⊢
        exact pathLe_trans h₁ h₂
      · simp only [if_neg hbc] at h₂ ⊢
        simp only [if_pos rfl] at h₁
        exact h₂
    · simp only [if_neg hab] at h₁
      by_cases hbc : b = c
      · subst hbc
        simp only [if_neg hab]
        exact h₁
      · simp only [if_neg hbc] at h₂
        have hac : a < c := lt_trans (of_decide_eq_true h₁) (of_decide_eq_true h₂)
        have : a ≠ c := ne_of_lt hac
        simp [if_neg this, hac]

theorem mem_insertSorted {x p : Path} : ∀ {l : List Path},
    (x ∈ insertSorted p l ↔ x = p ∨ x ∈ l)
  | [] => by simp [insertSorted]
  | q :: rest => by
    simp only [insertSorted]
    split
    · simp [or_comm, or_assoc, or_left_comm]
    · simp only [List.mem_cons, mem_insertSorted]
      tauto

theorem length_insertSorted (p : Path) : ∀ (l : List Path),
    (insertSorted p l).length = l.length + 1
  | [] => rfl
  | q :: rest => by
    simp only [insertSorted]
    split
    · simp
    · simp [length_insertSorted p rest]

theorem sorted_insertSorted (p : Path) : ∀ {l : List Path}, PathsSorted l →
    PathsSorted (insertSorted p l)
  | [], _ => by simp [insertSorted, PathsSorted]
  | q :: rest, h => by
    rcases (List.pairwise_cons.1 h) with ⟨hq, hrest⟩
    simp only [insertSorted]
    split
    · next hle =>
      refine List.pairwise_cons.2 ⟨?_, h⟩
      intro b hb
      rcases List.mem_cons.1 hb with hb | hb
      · exact hb ▸ hle
      · exact pathLe_trans hle (hq b hb)
    · next hnle =>
      have hqp : pathLe q p = true := by
        rcases pathLe_total p q with h' | h'
        · exact absurd h' hnle
        · exact h'
      refine List.pairwise_cons.2 ⟨?_, sorted_insertSorted p hrest⟩
      intro b hb
      rcases mem_insertSorted.1 hb with hb | hb
      · exact hb ▸ hqp
      · exact hq b hb

theorem mem_sortPaths {x : Path} : ∀ {l : List Path}, x ∈ sortPaths l ↔ x ∈ l
  | [] => by simp [sortPaths]
  | p :: rest => by
    simp only [sortPaths, mem_insertSorted, List.mem_cons, mem_sortPaths]

theorem length_sortPaths : ∀ (l : List Path), (sortPaths l).length = l.length
  | [] => rfl
  | p :: rest => by
    simp [sortPaths, length_insertSorted, length_sortPaths rest]

theorem sorted_sortPaths : ∀ (l : List Path), PathsSorted (sortPaths l)
  | [] => by simp [sortPaths, PathsSorted]
  | p :: rest => sorted_insertSorted p (sorted_sortPaths rest)

/-! ## Accumulation-map lemmas -/

theorem inAcc_nil {k v : Path} : ¬ inAcc [] k v := by
  rintro ⟨vs, h, -⟩
  simp at h

theorem inAcc_cons {k₀ : Path} {vs₀ : List Path} {rest : AccMap} {k v : Path} :
    inAcc ((k₀, vs₀) :: rest) k v ↔ (k = k₀ ∧ v ∈ vs₀) ∨ inAcc rest k v := by
  constructor
  · rintro ⟨vs, hmem, hv⟩
    rcases List.mem_cons.1 hmem with hmem | hmem
    · left
      obtain ⟨hk, hvs⟩ := Prod.mk.injEq .. ▸ hmem
      exact ⟨hk, hvs ▸ hv⟩
    · exact Or.inr ⟨vs, hmem, hv⟩
  · rintro (⟨hk, hv⟩ | ⟨vs, hmem, hv⟩)
    · exact ⟨vs₀, by simp [hk], hv⟩
    · exact ⟨vs, List.mem_cons_of_mem _ hmem, hv⟩

theorem inAcc_accInsert {k v k' v' : Path} : ∀ {acc : AccMap},
    (inAcc (accInsert acc k v) k' v' ↔ inAcc acc k' v' ∨ (k' = k ∧ v' = v))
  | [] => by
    simp only [accInsert, inAcc_cons]
    constructor
    · rintro (⟨hk, hv⟩ | h)
      · exact Or.inr ⟨hk, by simpa using hv⟩
      · exact absurd h inAcc_nil
    · rintro (h | ⟨hk, hv⟩)
      · exact absurd h inAcc_nil
      · exact Or.inl ⟨hk, by simp [hv]⟩
  | (k₀, vs₀) :: rest => by
    simp only [accInsert]
    split
    · next heq =>
      subst heq
      simp only [inAcc_cons]
      constructor
      · rintro (⟨hk, hv⟩ | h)
        · split at hv
          · exact Or.inl (Or.inl ⟨hk, hv⟩)
          · rcases List.mem_append.1 hv with hv | hv
            · exact Or.inl (Or.inl ⟨hk, hv⟩)
            · exact Or.inr ⟨hk, by simpa using hv⟩
        · exact Or.inl (Or.inr h)
      · rintro ((⟨hk, hv⟩ | h) | ⟨hk, hv⟩)
        · refine Or.inl ⟨hk, ?_⟩
          split <;> simp [hv]
        · exact Or.inr h
        · refine Or.inl ⟨hk, ?_⟩
          split
          · next hmem => exact hv ▸ hmem
          · simp [hv]
    · next hne =>
      simp only [inAcc_cons, inAcc_accInsert]
      tauto

theorem mem_accKeys_accInsert {x k v : Path} : ∀ {acc : AccMap},
    (x ∈ accKeys (accInsert acc k v) ↔ x ∈ accKeys acc ∨ x = k)
  | [] => by simp [accInsert, accKeys]
  | (k₀, vs₀) :: rest => by
    simp only [accInsert]
    split
    · next heq =>
      subst heq
      simp only [accKeys, List.map_cons, List.mem_cons]
      tauto
    · next hne =>
      simp only [accKeys, List.map_cons, List.mem_cons] at *
      rw [show ((accInsert rest k v).map Prod.fst) = accKeys (accInsert rest k v) from rfl,
        mem_accKeys_accInsert]
      simp only [accKeys]
      tauto

theorem nodup_accKeys_accInsert {k v : Path} : ∀ {acc : AccMap},
    (accKeys acc).Nodup → (accKeys (accInsert acc k v)).Nodup
  | [], _ => by simp [accInsert, accKeys]
  | (k₀, vs₀) :: rest, h => by
    simp only [accKeys, List.map_cons, List.nodup_cons] at h
    simp only [accInsert]
    split
    · next heq =>
      subst heq
      simp only [accKeys, List.map_cons, List.nodup_cons]
      exact h
    · next hne =>
      simp only [accKeys, List.map_cons, List.nodup_cons]
      refine ⟨?_, nodup_accKeys_accInsert h.2⟩
      intro hmem
      rcases mem_accKeys_accInsert.1 hmem with hmem | hmem
      · exact h.1 hmem
      · exact hne hmem

theorem vals_ne_nil_accInsert {k v : Path} : ∀ {acc : AccMap},
    (∀ e ∈ acc, e.2 ≠ []) → ∀ e ∈ accInsert acc k v, e.2 ≠ []
  | [], _, e, he => by
    simp only [accInsert, List.mem_singleton] at he
    subst he
    simp
  | (k₀, vs₀) :: rest, h, e, he => by
    simp only [accInsert] at he
    split at he
    · rcases List.mem_cons.1 he with he | he
      · subst he
        have := h (k₀, vs₀) (by simp)
        split <;> simp_all
      · exact h e (List.mem_cons_of_mem _ he)
    · rcases List.mem_cons.1 he with he | he
      · exact he ▸ h (k₀, vs₀) (by simp)
      · exact vals_ne_nil_accInsert (fun e' he' => h e' (List.mem_cons_of_mem _ he')) e he

theorem entry_eq_of_nodup_accKeys : ∀ {acc : AccMap} {k : Path} {vs vs' : List Path},
    (accKeys acc).Nodup → (k, vs) ∈ acc → (k, vs') ∈ acc → vs = vs'
  | [], k, vs, vs', _, hmem, _ => by simp at hmem
  | (k₀, vs₀) :: rest, k, vs, vs', hnd, hmem, hmem' => by
    simp only [accKeys, List.map_cons, List.nodup_cons] at hnd
    rcases List.mem_cons.1 hmem with hmem | hmem <;>
      rcases List.mem_cons.1 hmem' with hmem' | hmem'
    · rw [Prod.mk.injEq] at hmem hmem'
      rw [hmem.2, hmem'.2]
    · rw [Prod.mk.injEq] at hmem
      exact absurd (List.mem_map.2 ⟨(k, vs'), hmem', hmem.1⟩) hnd.1
    · rw [Prod.mk.injEq] at hmem'
      exact absurd (List.mem_map.2 ⟨(k, vs), hmem, hmem'.1⟩) hnd.1
    · exact entry_eq_of_nodup_accKeys hnd.2 hmem hmem'

theorem mem_vals_of_nodup_accKeys {acc : AccMap} {k : Path} {vs : List Path}
    (hnd : (accKeys acc).Nodup) (hmem : (k, vs) ∈ acc) (v : Path) :
    inAcc acc k v ↔ v ∈ vs := by
  constructor
  · rintro ⟨vs', hmem', hv'⟩
    exact (entry_eq_of_nodup_accKeys hnd hmem hmem') ▸ hv'
  · intro hv
    exact ⟨vs, hmem, hv⟩

/-! ## Walk characterization -/

theorem visitFile_ok {root f : Path} (acc : AccMap) (hv : validPath f = true)
    (hu : underPath root f = true) (hne : f ≠ root) :
    visitFile root acc f =
      .ok (if Ext f = ".proto" then accInsert acc (f.drop root.length) f else acc) := by
  by_cases hext : Ext f = ".proto"
  · simp [visitFile, hext, rel, hu, normalizeAndValidate, validPath_drop hv hu hne]
  · simp [visitFile, hext]

theorem walkFiles_eq_accumFiles (root : Path) : ∀ (fs : List Path) (acc : AccMap),
    (∀ f ∈ fs, validPath f = true ∧ underPath root f = true ∧ f ≠ root) →
    walkFiles root fs acc = .ok (accumFiles root fs acc)
  | [], acc, _ => rfl
  | f :: rest, acc, h => by
    obtain ⟨hv, hu, hne⟩ := h f (by simp)
    rw [walkFiles, visitFile_ok acc hv hu hne, accumFiles]
    exact walkFiles_eq_accumFiles root rest _ (fun g hg => h g (List.mem_cons_of_mem _ hg))

theorem walkRoot_eq_accumRoot (bucket : Bucket) (root : Path) (acc : AccMap)
    (hv : ∀ p ∈ bucket.files, validPath p = true) (hr : root ∉ bucket.files) :
    walkRoot bucket root acc = .ok (accumRoot bucket root acc) := by
  apply walkFiles_eq_accumFiles
  intro f hf
  rw [filesUnder, List.mem_filter] at hf
  exact ⟨hv f hf.1, hf.2, fun h => hr (h ▸ hf.1)⟩

theorem walkAll_eq_accumAll (bucket : Bucket)
    (hv : ∀ p ∈ bucket.files, validPath p = true) :
    ∀ (croots : List Path) (acc : AccMap), (∀ r ∈ croots, r ∉ bucket.files) →
    walkAll bucket croots acc = .ok (accumAll bucket croots acc)
  | [], acc, _ => rfl
  | r :: rest, acc, hr => by
    rw [walkAll, walkRoot_eq_accumRoot bucket r acc hv (hr r (by simp)), accumAll]
    exact walkAll_eq_accumAll bucket hv rest _ (fun r' h => hr r' (List.mem_cons_of_mem _ h))

theorem inAcc_accumFiles {k v root : Path} : ∀ {fs : List Path} {acc : AccMap},
    (inAcc (accumFiles root fs acc) k v ↔
      inAcc acc k v ∨ (v ∈ fs ∧ Ext v = ".proto" ∧ k = v.drop root.length))
  | [], acc => by simp [accumFiles]
  | f :: rest, acc => by
    rw [accumFiles, inAcc_accumFiles]
    by_cases hext : Ext f = ".proto"
    · rw [if_pos hext, inAcc_accInsert]
      constructor
      · rintro ((h | ⟨hk, hv⟩) | h)
        · exact Or.inl h
        · subst hv
          exact Or.inr ⟨by simp, hext, hk⟩
        · rcases h with ⟨hmem, he, hk⟩
          exact Or.inr ⟨List.mem_cons_of_mem _ hmem, he, hk⟩
      · rintro (h | ⟨hmem, he, hk⟩)
        · exact Or.inl (Or.inl h)
        · rcases List.mem_cons.1 hmem with hvf | hmem
          · subst hvf
            exact Or.inl (Or.inr ⟨hk, rfl⟩)
          · exact Or.inr ⟨hmem, he, hk⟩
    · rw [if_neg hext]
      constructor
      · rintro (h | ⟨hmem, he, hk⟩)
        · exact Or.inl h
        · exact Or.inr ⟨List.mem_cons_of_mem _ hmem, he, hk⟩
      · rintro (h | ⟨hmem, he, hk⟩)
        · exact Or.inl h
        · rcases List.mem_cons.1 hmem with hvf | hmem
          · subst hvf
            exact absurd he hext
          · exact Or.inr ⟨hmem, he, hk⟩

theorem inAcc_accumRoot {bucket : Bucket} {root k v : Path} {acc : AccMap} :
    inAcc (accumRoot bucket root acc) k v ↔
      inAcc acc k v ∨
        (v ∈ bucket.files ∧ underPath root v = true ∧ Ext v = ".proto" ∧
          k = v.drop root.length) := by
  rw [accumRoot, inAcc_accumFiles]
  constructor
  · rintro (h | ⟨hmem, he, hk⟩)
    · exact Or.inl h
    · rw [filesUnder, List.mem_filter] at hmem
      exact Or.inr ⟨hmem.1, hmem.2, he, hk⟩
  · rintro (h | ⟨hmem, hu, he, hk⟩)
    · exact Or.inl h
    · exact Or.inr ⟨List.mem_filter.2 ⟨hmem, hu⟩, he, hk⟩

theorem inAcc_accumAll {bucket : Bucket} {k v : Path} : ∀ {croots : List Path} {acc : AccMap},
    (inAcc (accumAll bucket croots acc) k v ↔
      inAcc acc k v ∨
        ∃ r ∈ croots, v ∈ bucket.files ∧ underPath r v = true ∧ Ext v = ".proto" ∧
          k = v.drop r.length)
  | [], acc => by simp [accumAll]
  | r :: rest, acc => by
    rw [accumAll, inAcc_accumAll, inAcc_accumRoot]
    constructor
    · rintro ((h | ⟨hmem, hu, he, hk⟩) | ⟨r', hr', hrest⟩)
      · exact Or.inl h
      · exact Or.inr ⟨r, by simp, hmem, hu, he, hk⟩
      · exact Or.inr ⟨r', List.mem_cons_of_mem _ hr', hrest⟩
    · rintro (h | ⟨r', hr', hrest⟩)
      · exact Or.inl (Or.inl h)
      · rcases List.mem_cons.1 hr' with hr' | hr'
        · subst hr'
          exact Or.inl (Or.inr hrest)
        · exact Or.inr ⟨r', hr', hrest⟩

theorem nodup_accKeys_accumFiles {root : Path} : ∀ {fs : List Path} {acc : AccMap},
    (accKeys acc).Nodup → (accKeys (accumFiles root fs acc)).Nodup
  | [], acc, h => h
  | f :: rest, acc, h => by
    rw [accumFiles]
    apply nodup_accKeys_accumFiles
    split
    · exact nodup_accKeys_accInsert h
    · exact h

theorem nodup_accKeys_accumAll {bucket : Bucket} : ∀ {croots : List Path} {acc : AccMap},
    (accKeys acc).Nodup → (accKeys (accumAll bucket croots acc)).Nodup
  | [], _, h => h
  | r :: rest, acc, h => by
    rw [accumAll, accumRoot]
    exact nodup_accKeys_accumAll (nodup_accKeys_accumFiles h)

theorem vals_ne_nil_accumFiles {root : Path} : ∀ {fs : List Path} {acc : AccMap},
    (∀ e ∈ acc, e.2 ≠ []) → ∀ e ∈ accumFiles root fs acc, e.2 ≠ []
  | [], acc, h => h
  | f :: rest, acc, h => by
    rw [accumFiles]
    apply vals_ne_nil_accumFiles
    split
    · exact vals_ne_nil_accInsert h
    · exact h

theorem vals_ne_nil_accumAll {bucket : Bucket} : ∀ {croots : List Path} {acc : AccMap},
    (∀ e ∈ acc, e.2 ≠ []) → ∀ e ∈ accumAll bucket croots acc, e.2 ≠ []
  | [], _, h => h
  | r :: rest, acc, h => by
    rw [accumAll, accumRoot]
    exact vals_ne_nil_accumAll (vals_ne_nil_accumFiles h)

/-! ## Collapse lemmas -/

theorem collapse_ok_mem : ∀ {acc : AccMap} {m : List (Path × Path)},
    collapse acc = .ok m → ∀ (k : Path) (vs : List Path), (k, vs) ∈ acc →
    ∃ v, vs = [v] ∧ (k, v) ∈ m := by
  intro acc
  induction acc with
  | nil =>
    intro m h k vs hmem
    simp at hmem
  | cons e rest ih =>
    obtain ⟨k₀, vs₀⟩ := e
    intro m h k vs hmem
    cases vs₀ with
    | nil => simp [collapse] at h
    | cons v₀ tail =>
      cases tail with
      | nil =>
        cases hc : collapse rest with
        | error e' => simp [collapse, hc] at h
        | ok m₀ =>
          simp only [collapse, hc, Except.ok.injEq] at h
          subst h
          rcases List.mem_cons.1 hmem with hmem | hmem
          · rw [Prod.mk.injEq] at hmem
            exact ⟨v₀, hmem.2, by simp [hmem.1]⟩
          · obtain ⟨v, hv, hvm⟩ := ih hc k vs hmem
            exact ⟨v, hv, List.mem_cons_of_mem _ hvm⟩
      | cons v₁ vs' => simp [collapse] at h

theorem collapse_ok_mem_rev : ∀ {acc : AccMap} {m : List (Path × Path)},
    collapse acc = .ok m → ∀ (k v : Path), (k, v) ∈ m → (k, [v]) ∈ acc := by
  intro acc
  induction acc with
  | nil =>
    intro m h k v hmem
    simp only [collapse, Except.ok.injEq] at h
    subst h
    simp at hmem
  | cons e rest ih =>
    obtain ⟨k₀, vs₀⟩ := e
    intro m h k v hmem
    cases vs₀ with
    | nil => simp [collapse] at h
    | cons v₀ tail =>
      cases tail with
      | nil =>
        cases hc : collapse rest with
        | error e' => simp [collapse, hc] at h
        | ok m₀ =>
          simp only [collapse, hc, Except.ok.injEq] at h
          subst h
          rcases List.mem_cons.1 hmem with hmem | hmem
          · rw [Prod.mk.injEq] at hmem
            simp [hmem.1, hmem.2]
          · exact List.mem_cons_of_mem _ (ih hc k v hmem)
      | cons v₁ vs' => simp [collapse] at h

theorem collapse_ok_or_collision : ∀ {acc : AccMap}, (∀ e ∈ acc, e.2 ≠ []) →
    (∃ m, collapse acc = .ok m) ∨
      ∃ k v₀ v₁ vs, (k, v₀ :: v₁ :: vs) ∈ acc ∧
        collapse acc = .error (.multipleRoots k (sortPaths (v₀ :: v₁ :: vs))) := by
  intro acc
  induction acc with
  | nil =>
    intro h
    exact Or.inl ⟨[], rfl⟩
  | cons e rest ih =>
    obtain ⟨k₀, vs₀⟩ := e
    intro h
    cases vs₀ with
    | nil => exact absurd rfl (h (k₀, []) (by simp))
    | cons v₀ tail =>
      cases tail with
      | nil =>
        rcases ih (fun e he => h e (List.mem_cons_of_mem _ he)) with
          ⟨m, hm⟩ | ⟨k, va, vb, vs, hmem, herr⟩
        · exact Or.inl ⟨(k₀, v₀) :: m, by simp [collapse, hm]⟩
        · exact Or.inr ⟨k, va, vb, vs, List.mem_cons_of_mem _ hmem,
            by simp [collapse, herr]⟩
      | cons v₁ vs' =>
        exact Or.inr ⟨k₀, v₀, v₁, vs', by simp, by simp [collapse]⟩

theorem collapse_ne_noRealFilePath {acc : AccMap} (h : ∀ e ∈ acc, e.2 ≠ [])
    (k : Path) : collapse acc ≠ .error (.noRealFilePath k) := by
  rcases collapse_ok_or_collision h with ⟨m, hm⟩ | ⟨k', v₀, v₁, vs, -, herr⟩
  · simp [hm]
  · simp [herr]

theorem collapse_keys : ∀ {acc : AccMap} {m : List (Path × Path)},
    collapse acc = .ok m → m.map Prod.fst = accKeys acc := by
  intro acc
  induction acc with
  | nil =>
    intro m h
    simp only [collapse, Except.ok.injEq] at h
    subst h
    rfl
  | cons e rest ih =>
    obtain ⟨k₀, vs₀⟩ := e
    intro m h
    cases vs₀ with
    | nil => simp [collapse] at h
    | cons v₀ tail =>
      cases tail with
      | nil =>
        cases hc : collapse rest with
        | error e' => simp [collapse, hc] at h
        | ok m₀ =>
          simp only [collapse, hc, Except.ok.injEq] at h
          subst h
          simp [accKeys, ih hc]
      | cons v₁ vs' => simp [collapse] at h

/-! ## Configuration lemmas -/

theorem validateAll_ok : ∀ {ps vs : List Path}, validateAll ps = .ok vs →
    vs = ps ∧ ∀ p ∈ ps, validPath p = true := by
  intro ps
  induction ps with
  | nil =>
    intro vs h
    simp only [validateAll, Except.ok.injEq] at h
    simp [h.symm]
  | cons p rest ih =>
    intro vs h
    by_cases hp : validPath p = true
    · cases hr : validateAll rest with
      | error e => simp [validateAll, normalizeAndValidate, hp, hr] at h
      | ok vs' =>
        simp only [validateAll, normalizeAndValidate, hp, if_true, hr,
          Except.ok.injEq] at h
        obtain ⟨hvs, hall⟩ := ih hr
        subst hvs
        subst h
        refine ⟨rfl, ?_⟩
        intro q hq
        rcases List.mem_cons.1 hq with hq | hq
        · exact hq ▸ hp
        · exact hall q hq
    · simp [validateAll, normalizeAndValidate, hp] at h

/-- Everything `newConfig` guarantees about a successfully produced
configuration. -/
theorem newConfig_ok {roots excludes : List Path} {c : Config}
    (h : newConfig roots excludes = .ok c) :
    c.Roots = roots.dedup ∧ c.Roots ≠ [] ∧ hasOverlap c.Roots = false ∧
      c.Roots.Nodup ∧ (∀ r ∈ c.Roots, validPath r = true) ∧
      (∀ r, r ∈ c.Roots ↔ r ∈ roots) ∧ c.Excludes = excludes.dedup := by
  cases hvr : validateAll roots with
  | error e =>
    rw [newConfig, hvr] at h
    simp at h
  | ok vr =>
    obtain ⟨hvreq, hvall⟩ := validateAll_ok hvr
    rw [newConfig, hvr] at h
    rw [hvreq] at h
    by_cases hemp : (roots.dedup).isEmpty
    · simp [hemp] at h
    · by_cases hov : hasOverlap roots.dedup
      · simp [hemp, hov] at h
      · cases hve : validateAll excludes with
        | error e => simp [hemp, hov, hve] at h
        | ok ve =>
          obtain ⟨hveeq, -⟩ := validateAll_ok hve
          simp only [Bool.not_eq_true] at hemp hov
          simp only [hemp, hov, hve, Bool.false_eq_true, if_false,
            Except.ok.injEq] at h
          subst h
          refine ⟨rfl, ?_, hov, List.nodup_dedup roots,
            fun r hr => hvall r (List.mem_dedup.1 hr),
            fun r => List.mem_dedup, by rw [hveeq]⟩
          intro hnil
          rw [show roots.dedup = [] from hnil] at hemp
          simp at hemp

theorem hasOverlap_false {roots : List Path} (h : hasOverlap roots = false) :
    ∀ r₁ ∈ roots, ∀ r₂ ∈ roots, r₁ ≠ r₂ → underPath r₁ r₂ = false := by
  intro r₁ h₁ r₂ h₂ hne
  rw [hasOverlap] at h
  by_contra hu
  rw [Bool.not_eq_false] at hu
  have : roots.any (fun r1 => roots.any
      (fun r2 => decide (r1 ≠ r2) && underPath r1 r2)) = true :=
    List.any_eq_true.2 ⟨r₁, h₁, List.any_eq_true.2 ⟨r₂, h₂, by simp [hne, hu]⟩⟩
  rw [h] at this
  exact absurd this (by simp)

/-! ## Success and error propagation through the walk -/

theorem visitFile_preserves {P : AccMap → Prop}
    (hP : ∀ acc k v, P acc → P (accInsert acc k v)) :
    ∀ {root acc f acc'}, visitFile root acc f = .ok acc' → P acc → P acc' := by
  intro root acc f acc' h hacc
  rw [visitFile] at h
  split at h
  · simp only [Except.ok.injEq] at h
    subst h
    exact hacc
  · cases hr : rel root f with
    | error e =>
      rw [hr] at h
      simp at h
    | ok q =>
      rw [hr] at h
      simp only [] at h
      cases hn : normalizeAndValidate q with
      | error e =>
        rw [hn] at h
        simp at h
      | ok nq =>
        rw [hn] at h
        simp only [Except.ok.injEq] at h
        subst h
        exact hP acc nq f hacc

theorem walkFiles_preserves {P : AccMap → Prop}
    (hP : ∀ acc k v, P acc → P (accInsert acc k v)) :
    ∀ {fs : List Path} {root acc acc'}, walkFiles root fs acc = .ok acc' → P acc → P acc'
  | [], root, acc, acc', h, hacc => by
    simp only [walkFiles, Except.ok.injEq] at h
    subst h
    exact hacc
  | f :: rest, root, acc, acc', h, hacc => by
    rw [walkFiles] at h
    cases hv : visitFile root acc f with
    | error e =>
      rw [hv] at h
      simp at h
    | ok acc₁ =>
      rw [hv] at h
      exact walkFiles_preserves hP h (visitFile_preserves hP hv hacc)

theorem walkAll_preserves {P : AccMap → Prop}
    (hP : ∀ acc k v, P acc → P (accInsert acc k v)) {bucket : Bucket} :
    ∀ {croots : List Path} {acc acc'}, walkAll bucket croots acc = .ok acc' → P acc → P acc'
  | [], acc, acc', h, hacc => by
    simp only [walkAll, Except.ok.injEq] at h
    subst h
    exact hacc
  | r :: rest, acc, acc', h, hacc => by
    rw [walkAll] at h
    cases hw : walkRoot bucket r acc with
    | error e =>
      rw [hw] at h
      simp at h
    | ok acc₁ =>
      rw [hw] at h
      exact walkAll_preserves hP h (walkFiles_preserves hP hw hacc)

theorem visitFile_error {root acc f e} (h : visitFile root acc f = .error e) :
    (∃ a b, e = BufError.relError a b) ∨ ∃ p, e = BufError.normalizeError p := by
  rw [visitFile] at h
  split at h
  · simp at h
  · cases hr : rel root f with
    | error e' =>
      rw [hr] at h
      rw [rel] at hr
      split at hr
      · simp at hr
      · simp only [Except.error.injEq] at hr h
        subst hr h
        exact Or.inl ⟨root, f, rfl⟩
    | ok q =>
      rw [hr] at h
      simp only [] at h
      cases hn : normalizeAndValidate q with
      | error e' =>
        rw [hn] at h
        rw [normalizeAndValidate] at hn
        split at hn
        · simp at hn
        · simp only [Except.error.injEq] at hn h
          subst hn h
          exact Or.inr ⟨q, rfl⟩
      | ok nq =>
        rw [hn] at h
        simp at h

theorem walkFiles_error {root : Path} : ∀ {fs : List Path} {acc : AccMap} {e : BufError},
    walkFiles root fs acc = .error e →
    (∃ a b, e = BufError.relError a b) ∨ ∃ p, e = BufError.normalizeError p
  | [], acc, e, h => by simp [walkFiles] at h
  | f :: rest, acc, e, h => by
    rw [walkFiles] at h
    cases hv : visitFile root acc f with
    | error e' =>
      rw [hv] at h
      simp only [Except.error.injEq] at h
      subst h
      exact visitFile_error hv
    | ok acc₁ =>
      rw [hv] at h
      exact walkFiles_error h

theorem walkAll_error {bucket : Bucket} : ∀ {croots : List Path} {acc : AccMap} {e : BufError},
    walkAll bucket croots acc = .error e →
    (∃ a b, e = BufError.relError a b) ∨ ∃ p, e = BufError.normalizeError p
  | [], acc, e, h => by simp [walkAll] at h
  | r :: rest, acc, e, h => by
    rw [walkAll] at h
    cases hw : walkRoot bucket r acc with
    | error e' =>
      rw [hw] at h
      simp only [Except.error.injEq] at h
      subst h
      exact walkFiles_error hw
    | ok acc₁ =>
      rw [hw] at h
      exact walkAll_error h

theorem validateAll_error : ∀ {ps : List Path} {e : BufError}, validateAll ps = .error e →
    ∃ p, e = BufError.normalizeError p
  | [], e, h => by simp [validateAll] at h
  | p :: rest, e, h => by
    rw [validateAll] at h
    by_cases hp : validPath p = true
    · simp only [normalizeAndValidate, hp, if_true] at h
      cases hr : validateAll rest with
      | error e' =>
        rw [hr] at h
        simp only [Except.error.injEq] at h
        subst h
        exact validateAll_error hr
      | ok vs =>
        rw [hr] at h
        simp at h
    · simp only [normalizeAndValidate, hp, if_false, Bool.false_eq_true,
        Except.error.injEq] at h
      subst h
      exact ⟨p, rfl⟩

theorem newConfig_error {roots excludes : List Path} {e : BufError}
    (h : newConfig roots excludes = .error e) :
    (∃ s, e = BufError.configError s) ∨ ∃ p, e = BufError.normalizeError p := by
  rw [newConfig] at h
  cases hvr : validateAll roots with
  | error e' =>
    rw [hvr] at h
    simp only [Except.error.injEq] at h
    subst h
    exact Or.inr (validateAll_error hvr)
  | ok vr =>
    rw [hvr] at h
    by_cases hemp : (vr.dedup).isEmpty
    · simp only [hemp, if_true, Except.error.injEq] at h
      subst h
      exact Or.inl ⟨"no roots specified", rfl⟩
    · simp only [hemp, Bool.false_eq_true, if_false] at h
      by_cases hov : hasOverlap vr.dedup
      · simp only [hov, if_true, Except.error.injEq] at h
        subst h
        exact Or.inl ⟨"overlapping roots", rfl⟩
      · simp only [hov, Bool.false_eq_true, if_false] at h
        cases hve : validateAll excludes with
        | error e' =>
          rw [hve] at h
          simp only [Except.error.injEq] at h
          subst h
          exact Or.inr (validateAll_error hve)
        | ok ve =>
          rw [hve] at h
          simp at h

/-! ## Explicit-path loop lemmas -/

theorem ncheck_append {bucket : Bucket} {flag : Bool} :
    ∀ {xs : List Path} (ys : List Path) {seen tr seen' tr' : List Path},
    normalizeAndCheck bucket flag xs seen tr = (.ok seen', tr') →
    normalizeAndCheck bucket flag (xs ++ ys) seen tr =
      normalizeAndCheck bucket flag ys seen' tr'
  | [], ys, seen, tr, seen', tr', h => by
    simp only [normalizeAndCheck, Prod.mk.injEq, Except.ok.injEq] at h
    rw [List.nil_append, h.1, h.2]
  | p :: rest, ys, seen, tr, seen', tr', h => by
    rw [List.cons_append]
    rw [normalizeAndCheck] at h ⊢
    cases hn : normalizeAndValidate p with
    | error e =>
      rw [hn] at h
      simp at h
    | ok np =>
      rw [hn] at h
      simp only [] at h ⊢
      by_cases hseen : np ∈ seen
      · simp only [if_pos hseen] at h
        simp at h
      · rw [if_neg hseen] at h ⊢
        by_cases hsf : np ∈ bucket.statFailures
        · simp only [if_pos hsf] at h
          simp at h
        · rw [if_neg hsf] at h ⊢
          by_cases hbf : np ∈ bucket.files
          · rw [if_pos hbf] at h ⊢
            exact ncheck_append ys h
          · rw [if_neg hbf] at h ⊢
            cases flag with
            | true =>
              simp only [if_true] at h ⊢
              exact ncheck_append ys h
            | false =>
              simp only [Bool.false_eq_true, if_false] at h
              simp at h

theorem ncheck_fst_trace {bucket : Bucket} {flag : Bool} :
    ∀ {ps seen : List Path} (tr tr' : List Path),
    (normalizeAndCheck bucket flag ps seen tr).1 =
      (normalizeAndCheck bucket flag ps seen tr').1
  | [], seen, tr, tr' => rfl
  | p :: rest, seen, tr, tr' => by
    rw [normalizeAndCheck, normalizeAndCheck]
    cases hn : normalizeAndValidate p with
    | error e => rfl
    | ok np =>
      simp only []
      by_cases hseen : np ∈ seen
      · simp only [if_pos hseen]
      · rw [if_neg hseen, if_neg hseen]
        by_cases hsf : np ∈ bucket.statFailures
        · simp only [if_pos hsf]
        · rw [if_neg hsf, if_neg hsf]
          by_cases hbf : np ∈ bucket.files
          · rw [if_pos hbf, if_pos hbf]
            exact ncheck_fst_trace (tr ++ [np]) (tr' ++ [np])
          · rw [if_neg hbf, if_neg hbf]
            cases flag with
            | true =>
              simp only [if_true]
              exact ncheck_fst_trace (tr ++ [np]) (tr' ++ [np])
            | false => rfl

theorem build_append {croots : List Path} :
    ∀ {xs : List Path} (ys : List Path) {m m' : List (Path × Path)},
    buildRootFilePathMap croots xs m = .ok m' →
    buildRootFilePathMap croots (xs ++ ys) m = buildRootFilePathMap croots ys m'
  | [], ys, m, m', h => by
    simp only [buildRootFilePathMap, Except.ok.injEq] at h
    rw [List.nil_append, h]
  | p :: rest, ys, m, m', h => by
    rw [List.cons_append]
    rw [buildRootFilePathMap] at h ⊢
    cases hm : matchingRoots croots p with
    | nil =>
      rw [hm] at h
      simp at h
    | cons r tail =>
      cases tail with
      | nil =>
        rw [hm] at h
        simp only [] at h ⊢
        cases hr : rel r p with
        | error e =>
          rw [hr] at h
          simp at h
        | ok q =>
          rw [hr] at h
          simp only [] at h ⊢
          cases hn : normalizeAndValidate q with
          | error e =>
            rw [hn] at h
            simp at h
          | ok nq =>
            rw [hn] at h
            simp only [] at h ⊢
            cases hl : lookupPath nq m with
            | some other =>
              rw [hl] at h
              simp at h
            | none =>
              rw [hl] at h
              simp only [] at h ⊢
              exact build_append ys h
      | cons r₂ tail₂ =>
        rw [hm] at h
        simp at h

theorem lookupPath_none_iff {k : Path} : ∀ {m : List (Path × Path)},
    (lookupPath k m = none ↔ k ∉ m.map Prod.fst)
  | [] => by simp [lookupPath]
  | (k₀, v₀) :: rest => by
    rw [lookupPath]
    by_cases hk : k₀ = k
    · subst hk
      simp
    · rw [if_neg hk]
      rw [lookupPath_none_iff]
      simp only [List.map_cons, List.mem_cons]
      constructor
      · intro h hmem
        rcases hmem with hmem | hmem
        · exact hk hmem.symm
        · exact h hmem
      · intro h hmem
        exact h (Or.inr hmem)

theorem build_nodup {croots : List Path} :
    ∀ {ps : List Path} {m m' : List (Path × Path)},
    buildRootFilePathMap croots ps m = .ok m' →
    (m.map Prod.fst).Nodup → (m'.map Prod.fst).Nodup
  | [], m, m', h, hnd => by
    simp only [buildRootFilePathMap, Except.ok.injEq] at h
    subst h
    exact hnd
  | p :: rest, m, m', h, hnd => by
    rw [buildRootFilePathMap] at h
    cases hm : matchingRoots croots p with
    | nil =>
      rw [hm] at h
      simp at h
    | cons r tail =>
      cases tail with
      | nil =>
        rw [hm] at h
        simp only [] at h
        cases hr : rel r p with
        | error e =>
          rw [hr] at h
          simp at h
        | ok q =>
          rw [hr] at h
          simp only [] at h
          cases hn : normalizeAndValidate q with
          | error e =>
            rw [hn] at h
            simp at h
          | ok nq =>
            rw [hn] at h
            simp only [] at h
            cases hl : lookupPath nq m with
            | some other =>
              rw [hl] at h
              simp at h
            | none =>
              rw [hl] at h
              simp only [] at h
              refine build_nodup h ?_
              rw [List.map_append]
              rw [List.nodup_append]
              refine ⟨hnd, by simp, ?_⟩
              intro x hx hx'
              simp only [List.map_cons, List.map_nil, List.mem_singleton] at hx'
              subst hx'
              exact (lookupPath_none_iff.1 hl) hx
      | cons r₂ tail₂ =>
        rw [hm] at h
        simp at h

/-- A list with a member that satisfies a decidable predicate, all of whose
satisfying members are that one element, filters to the singleton. -/
theorem filter_eq_singleton_of_unique {α : Type} [DecidableEq α] {p : α → Bool} :
    ∀ {l : List α} {r : α}, l.Nodup → r ∈ l → p r = true →
    (∀ x ∈ l, p x = true → x = r) → l.filter p = [r]
  | [], r, _, hr, _, _ => by simp at hr
  | a :: t, r, hnd, hr, hpr, huniq => by
    rw [List.nodup_cons] at hnd
    rcases List.mem_cons.1 hr with hr | hr
    · subst hr
      rw [List.filter_cons, if_pos hpr]
      have : t.filter p = [] := by
        rw [List.filter_eq_nil_iff]
        intro x hx hpx
        exact hnd.1 ((huniq x (List.mem_cons_of_mem _ hx) hpx) ▸ hx)
      rw [this]
    · have hpa : p a = false := by
        by_contra hpa
        rw [Bool.not_eq_false] at hpa
        exact hnd.1 ((huniq a (by simp) hpa) ▸ hr)
      rw [List.filter_cons, if_neg (by simp [hpa])]
      exact filter_eq_singleton_of_unique hnd.2 hr hpr
        (fun x hx hpx => huniq x (List.mem_cons_of_mem _ hx) hpx)

theorem matchingRoots_eq_singleton {croots : List Path} {r a : Path}
    (hnd : croots.Nodup) (hov : hasOverlap croots = false)
    (hr : r ∈ croots) (hra : underPath r a = true) :
    matchingRoots croots a = [r] := by
  rw [matchingRoots]
  refine filter_eq_singleton_of_unique hnd hr hra ?_
  intro x hx hpx
  by_contra hne
  rcases underPath_comparable hpx hra with hcomp | hcomp
  · exact absurd hcomp (by simp [hasOverlap_false hov x hx r hr hne])
  · exact absurd hcomp (by simp [hasOverlap_false hov r hr x hx (Ne.symm hne)])


/-! ## Pipeline lemmas -/

theorem Ext_append {r q : Path} (hq : q ≠ []) : Ext (r ++ q) = Ext q := by
  rw [Ext, Ext, List.getLast?_append_of_ne_nil r hq]

theorem Ext_nil_ne_proto : Ext ([] : Path) ≠ ".proto" := by decide

/-- Unfolding of `getProtoFileSetForBucket` through a successful walk. -/
theorem gpfs_eq {bucket : Bucket} {roots excludes : List Path} {c : Config}
    (hc : newConfig roots excludes = .ok c)
    (hV : ∀ p ∈ bucket.files, validPath p = true)
    (hR : ∀ r ∈ c.Roots, r ∉ bucket.files) :
    getProtoFileSetForBucket bucket roots excludes =
      match collapse (accumAll bucket c.Roots []) with
      | .error e => .error e
      | .ok m =>
        if c.Excludes.isEmpty then
          if m.isEmpty then .error .noFilesMatchRoots
          else .ok (newProtoFileSet c.Roots m)
        else
          if (m.filter (fun e => !containsMatch c.Excludes (dirPath e.2))).isEmpty then
            .error .noFilesMatchRootsAndExcludes
          else .ok (newProtoFileSet c.Roots
            (m.filter (fun e => !containsMatch c.Excludes (dirPath e.2)))) := by
  rw [getProtoFileSetForBucket, hc]
  simp only []
  rw [walkAll_eq_accumAll bucket hV c.Roots [] hR]


/-! ## Claims -/

/-- C9: in `GetProtoFileSetForBucket`, the zero-real-paths error branch
("no real file path for file path") is unreachable: every logical-path key
is inserted into the accumulation map together with at least one real path,
so its real-path set is non-empty when the map is collapsed, and the
function never returns this error. -/
theorem c9_noRealFilePath_unreachable (bucket : Bucket) (roots excludes : List Path)
    (k : Path) :
    getProtoFileSetForBucket bucket roots excludes ≠ .error (.noRealFilePath k) := by
  intro h
  rw [getProtoFileSetForBucket] at h
  cases hc : newConfig roots excludes with
  | error e =>
    rw [hc] at h
    simp only [Except.error.injEq] at h
    subst h
    rcases newConfig_error hc with ⟨s, hs⟩ | ⟨p, hp⟩ <;> simp_all
  | ok c =>
    rw [hc] at h
    simp only [] at h
    cases hw : walkAll bucket c.Roots [] with
    | error e =>
      rw [hw] at h
      simp only [Except.error.injEq] at h
      subst h
      rcases walkAll_error hw with ⟨a, b, hab⟩ | ⟨p, hp⟩ <;> simp_all
    | ok acc =>
      rw [hw] at h
      simp only [] at h
      have hvals : ∀ e ∈ acc, e.2 ≠ [] :=
        @walkAll_preserves (fun a => ∀ e ∈ a, e.2 ≠ [])
          (fun acc k v hv => vals_ne_nil_accInsert hv) bucket c.Roots [] acc hw
          (by simp)
      cases hcol : collapse acc with
      | error e =>
        rw [hcol] at h
        simp only [Except.error.injEq] at h
        subst h
        exact collapse_ne_noRealFilePath hvals k hcol
      | ok m =>
        rw [hcol] at h
        simp only [] at h
        split at h
        · split at h <;> simp_all
        · split at h <;> simp_all

/-- C1: for every validated configuration with no excludes, on a bucket of
valid file paths none of which is itself a root, a successful
`GetProtoFileSetForBucket` returns a mapping whose keys are distinct and
which contains `(v relative to r, v)` exactly for the `.proto` files `v` of
the bucket lying under a configured root `r`. -/
theorem c1_root_scan_characterization (bucket : Bucket) (roots : List Path)
    (c : Config) (pfs : ProtoFileSet)
    (hc : newConfig roots [] = .ok c)
    (hV : ∀ p ∈ bucket.files, validPath p = true)
    (hR : ∀ r ∈ c.Roots, r ∉ bucket.files)
    (hok : getProtoFileSetForBucket bucket roots [] = .ok pfs) :
    (pfs.mapping.map Prod.fst).Nodup ∧
      ∀ k v : Path, ((k, v) ∈ pfs.mapping ↔
        ∃ r ∈ c.Roots, v ∈ bucket.files ∧ underPath r v = true ∧
          Ext v = ".proto" ∧ k = v.drop r.length) := by
  rw [gpfs_eq hc hV hR] at hok
  have hexc : c.Excludes = [] := by
    obtain ⟨-, -, -, -, -, -, hexc⟩ := newConfig_ok hc
    simpa using hexc
  cases hcol : collapse (accumAll bucket c.Roots []) with
  | error e =>
    rw [hcol] at hok
    simp at hok
  | ok m =>
    rw [hcol] at hok
    simp only [hexc, List.isEmpty_nil, if_true] at hok
    by_cases hemp : m.isEmpty
    · rw [if_pos hemp] at hok
      simp at hok
    · rw [if_neg hemp] at hok
      simp only [Except.ok.injEq] at hok
      subst hok
      have hnd : (accKeys (accumAll bucket c.Roots [])).Nodup :=
        nodup_accKeys_accumAll (by simp [accKeys])
      constructor
      · show (m.map Prod.fst).Nodup
        rw [collapse_keys hcol]
        exact hnd
      · intro k v
        constructor
        · intro hmem
          have hacc := collapse_ok_mem_rev hcol k v hmem
          have hin : inAcc (accumAll bucket c.Roots []) k v := ⟨[v], hacc, by simp⟩
          rcases inAcc_accumAll.1 hin with habs | hr
          · exact absurd habs inAcc_nil
          · exact hr
        · intro hr
          have hin : inAcc (accumAll bucket c.Roots []) k v :=
            inAcc_accumAll.2 (Or.inr hr)
          obtain ⟨vs, hmem, hv⟩ := hin
          obtain ⟨v', hv', hvm⟩ := collapse_ok_mem hcol k vs hmem
          subst hv'
          simp only [List.mem_singleton] at hv
          subst hv
          exact hvm

/-- C1 witness: with root `proto` and bucket `{proto/foo/a.proto,
proto/foo/b.proto}`, resolution succeeds with exactly
`{foo/a.proto ↦ proto/foo/a.proto, foo/b.proto ↦ proto/foo/b.proto}`, and
the characterization theorem applies at this input. -/
theorem c1_root_scan_characterization_witness :
    getProtoFileSetForBucket
        ⟨[["proto", "foo", "a.proto"], ["proto", "foo", "b.proto"]], []⟩
        [["proto"]] [] =
      .ok ⟨[["proto"]],
        [(["foo", "a.proto"], ["proto", "foo", "a.proto"]),
         (["foo", "b.proto"], ["proto", "foo", "b.proto"])]⟩ ∧
    ((((⟨[["proto"]],
        [(["foo", "a.proto"], ["proto", "foo", "a.proto"]),
         (["foo", "b.proto"], ["proto", "foo", "b.proto"])]⟩ :
          ProtoFileSet).mapping.map Prod.fst).Nodup) ∧
      ∀ k v : Path, ((k, v) ∈ (⟨[["proto"]],
        [(["foo", "a.proto"], ["proto", "foo", "a.proto"]),
         (["foo", "b.proto"], ["proto", "foo", "b.proto"])]⟩ :
          ProtoFileSet).mapping ↔
        ∃ r ∈ ({ Roots := [["proto"]], Excludes := [] } : Config).Roots,
          v ∈ (⟨[["proto", "foo", "a.proto"], ["proto", "foo", "b.proto"]], []⟩ :
            Bucket).files ∧ underPath r v = true ∧
          Ext v = ".proto" ∧ k = v.drop r.length)) :=
  ⟨by rfl,
    c1_root_scan_characterization
      ⟨[["proto", "foo", "a.proto"], ["proto", "foo", "b.proto"]], []⟩
      [["proto"]] ⟨[["proto"]], []⟩ _
      (by rfl) (by decide) (by decide) (by rfl)⟩

/-- C2: whenever two distinct configured roots both contain a file at the
same root-relative path, `GetProtoFileSetForBucket` fails with the
collision error, whose path list is lexicographically sorted, has at least
two entries, and consists of `.proto` files reachable under the roots at
the reported logical path — and this holds for every excludes list, because
the collision check runs before exclude filtering. -/
theorem c2_root_collision (bucket : Bucket) (roots excludes : List Path)
    (c : Config) (r₁ r₂ q : Path)
    (hc : newConfig roots excludes = .ok c)
    (hV : ∀ p ∈ bucket.files, validPath p = true)
    (hR : ∀ r ∈ c.Roots, r ∉ bucket.files)
    (h₁ : r₁ ∈ c.Roots) (h₂ : r₂ ∈ c.Roots) (hne : r₁ ≠ r₂)
    (hext : Ext q = ".proto")
    (hf₁ : r₁ ++ q ∈ bucket.files) (hf₂ : r₂ ++ q ∈ bucket.files) :
    ∃ k l, getProtoFileSetForBucket bucket roots excludes =
        .error (.multipleRoots k l) ∧ PathsSorted l ∧ 2 ≤ l.length ∧
        ∀ v ∈ l, v ∈ bucket.files ∧ Ext v = ".proto" ∧
          ∃ r ∈ c.Roots, underPath r v = true ∧ k = v.drop r.length := by
  have hqne : q ≠ [] := by
    intro hq
    rw [hq] at hext
    exact Ext_nil_ne_proto hext
  have hvne : r₁ ++ q ≠ r₂ ++ q := by
    intro heq
    exact hne (List.append_cancel_right heq)
  have hin₁ : inAcc (accumAll bucket c.Roots []) q (r₁ ++ q) :=
    inAcc_accumAll.2 (Or.inr ⟨r₁, h₁, hf₁, underPath_append r₁ q,
      (Ext_append hqne).symm ▸ hext, (drop_append_of_underPath).symm⟩)
  have hin₂ : inAcc (accumAll bucket c.Roots []) q (r₂ ++ q) :=
    inAcc_accumAll.2 (Or.inr ⟨r₂, h₂, hf₂, underPath_append r₂ q,
      (Ext_append hqne).symm ▸ hext, (drop_append_of_underPath).symm⟩)
  have hnd : (accKeys (accumAll bucket c.Roots [])).Nodup :=
    nodup_accKeys_accumAll (by simp [accKeys])
  obtain ⟨vs, hmem, hv₁⟩ := hin₁
  have hv₂ : r₂ ++ q ∈ vs := (mem_vals_of_nodup_accKeys hnd hmem (r₂ ++ q)).1 hin₂
  have hvals : ∀ e ∈ accumAll bucket c.Roots [] , e.2 ≠ [] :=
    vals_ne_nil_accumAll (by simp)
  rcases collapse_ok_or_collision hvals with ⟨m, hm⟩ | ⟨k, v₀, v₁, vs', hmem', herr⟩
  · obtain ⟨v, hveq, -⟩ := collapse_ok_mem hm q vs hmem
    subst hveq
    simp only [List.mem_singleton] at hv₁ hv₂
    exact absurd (hv₁.symm ▸ hv₂ : r₂ ++ q = r₁ ++ q) (Ne.symm hvne)
  · refine ⟨k, sortPaths (v₀ :: v₁ :: vs'), ?_, sorted_sortPaths _, ?_, ?_⟩
    · rw [gpfs_eq hc hV hR, herr]
    · rw [length_sortPaths]
      simp
    · intro v hv
      have hvmem : v ∈ v₀ :: v₁ :: vs' := mem_sortPaths.1 hv
      have hin : inAcc (accumAll bucket c.Roots []) k v := ⟨_, hmem', hvmem⟩
      rcases inAcc_accumAll.1 hin with habs | ⟨r, hr, hmemf, hu, he, hk⟩
      · exact absurd habs inAcc_nil
      · exact ⟨hmemf, he, r, hr, hu, hk⟩

/-- C2 witness: two roots `a` and `b` each holding `x.proto` collide; the
error lists both real paths sorted, whatever the excludes. -/
theorem c2_root_collision_witness :
    ∃ k l, getProtoFileSetForBucket ⟨[["b", "x.proto"], ["a", "x.proto"]], []⟩
        [["b"], ["a"]] [["zzz"]] =
        .error (.multipleRoots k l) ∧ PathsSorted l ∧ 2 ≤ l.length ∧
        ∀ v ∈ l, v ∈ (⟨[["b", "x.proto"], ["a", "x.proto"]], []⟩ : Bucket).files ∧
          Ext v = ".proto" ∧
          ∃ r ∈ ({ Roots := [["b"], ["a"]], Excludes := [["zzz"]] } : Config).Roots,
            underPath r v = true ∧ k = v.drop r.length :=
  c2_root_collision ⟨[["b", "x.proto"], ["a", "x.proto"]], []⟩
    [["b"], ["a"]] [["zzz"]] ⟨[["b"], ["a"]], [["zzz"]]⟩
    ["b"] ["a"] ["x.proto"]
    (by rfl) (by decide) (by decide) (by decide) (by decide) (by decide)
    (by decide) (by decide) (by decide)


/-- C3: exclude monotonicity — whenever resolution succeeds both with no
excludes and with some excludes list over the same bucket and roots, every
entry of the with-excludes mapping is an entry of the no-excludes
mapping. -/
theorem c3_exclude_monotone (bucket : Bucket) (roots excludes : List Path)
    (pfs₁ pfs₂ : ProtoFileSet)
    (h₁ : getProtoFileSetForBucket bucket roots [] = .ok pfs₁)
    (h₂ : getProtoFileSetForBucket bucket roots excludes = .ok pfs₂) :
    ∀ e ∈ pfs₂.mapping, e ∈ pfs₁.mapping := by
  rw [getProtoFileSetForBucket] at h₁ h₂
  cases hc₁ : newConfig roots [] with
  | error e =>
    rw [hc₁] at h₁
    simp at h₁
  | ok c₁ =>
    rw [hc₁] at h₁
    simp only [] at h₁
    cases hc₂ : newConfig roots excludes with
    | error e =>
      rw [hc₂] at h₂
      simp at h₂
    | ok c₂ =>
      rw [hc₂] at h₂
      simp only [] at h₂
      have hroots : c₂.Roots = c₁.Roots := by
        obtain ⟨ha, -⟩ := newConfig_ok hc₁
        obtain ⟨hb, -⟩ := newConfig_ok hc₂
        rw [ha, hb]
      rw [hroots] at h₂
      cases hw : walkAll bucket c₁.Roots [] with
      | error e =>
        rw [hw] at h₁
        simp at h₁
      | ok acc =>
        rw [hw] at h₁ h₂
        simp only [] at h₁ h₂
        cases hcol : collapse acc with
        | error e =>
          rw [hcol] at h₁
          simp at h₁
        | ok m =>
          rw [hcol] at h₁ h₂
          simp only [] at h₁ h₂
          have hexc₁ : c₁.Excludes = [] := by
            obtain ⟨-, -, -, -, -, -, he⟩ := newConfig_ok hc₁
            simpa using he
          rw [hexc₁] at h₁
          simp only [List.isEmpty_nil, if_true] at h₁
          by_cases hemp : m.isEmpty
          · rw [if_pos hemp] at h₁
            simp at h₁
          · rw [if_neg hemp] at h₁
            simp only [Except.ok.injEq] at h₁
            subst h₁
            by_cases hexc₂ : c₂.Excludes.isEmpty
            · rw [if_pos hexc₂, if_neg hemp] at h₂
              simp only [Except.ok.injEq] at h₂
              subst h₂
              intro e he
              exact he
            · rw [if_neg hexc₂] at h₂
              by_cases hempf :
                  (m.filter (fun e => !containsMatch c₂.Excludes (dirPath e.2))).isEmpty
              · rw [if_pos hempf] at h₂
                simp at h₂
              · rw [if_neg hempf] at h₂
                simp only [Except.ok.injEq] at h₂
                subst h₂
                intro e he
                exact (List.mem_filter.1 he).1

/-- C3 witness: with root `proto`, excluding `proto/foo` over a bucket that
also holds `proto/bar/c.proto`, both runs succeed and the filtered mapping
is contained in the unfiltered one. -/
theorem c3_exclude_monotone_witness :
    (["bar", "c.proto"], ["proto", "bar", "c.proto"]) ∈ (⟨[["proto"]],
        [(["foo", "a.proto"], ["proto", "foo", "a.proto"]),
         (["bar", "c.proto"], ["proto", "bar", "c.proto"])]⟩ :
          ProtoFileSet).mapping :=
  c3_exclude_monotone
    ⟨[["proto", "foo", "a.proto"], ["proto", "bar", "c.proto"]], []⟩
    [["proto"]] [["proto", "foo"]]
    ⟨[["proto"]],
      [(["foo", "a.proto"], ["proto", "foo", "a.proto"]),
       (["bar", "c.proto"], ["proto", "bar", "c.proto"])]⟩
    ⟨[["proto"]], [(["bar", "c.proto"], ["proto", "bar", "c.proto"])]⟩
    (by rfl) (by rfl)
    (["bar", "c.proto"], ["proto", "bar", "c.proto"]) (by decide)

/-- C4: when the final mapping is empty, `GetProtoFileSetForBucket` fails,
and the error distinguishes whether excludes were configured: with no
excludes the "no input files found that match roots" error, with excludes
the "no input files found that match roots and excludes" error. -/
theorem c4_empty_result_errors (bucket : Bucket) (roots excludes : List Path)
    (c : Config) (acc : AccMap) (m : List (Path × Path))
    (hc : newConfig roots excludes = .ok c)
    (hw : walkAll bucket c.Roots [] = .ok acc)
    (hcol : collapse acc = .ok m) :
    (excludes = [] → m = [] →
      getProtoFileSetForBucket bucket roots excludes = .error .noFilesMatchRoots) ∧
    (excludes ≠ [] →
      m.filter (fun e => !containsMatch c.Excludes (dirPath e.2)) = [] →
      getProtoFileSetForBucket bucket roots excludes =
        .error .noFilesMatchRootsAndExcludes) := by
  have hunfold : getProtoFileSetForBucket bucket roots excludes =
      (if c.Excludes.isEmpty then
        if m.isEmpty then .error .noFilesMatchRoots
        else .ok (newProtoFileSet c.Roots m)
      else
        if (m.filter (fun e => !containsMatch c.Excludes (dirPath e.2))).isEmpty then
          .error .noFilesMatchRootsAndExcludes
        else .ok (newProtoFileSet c.Roots
          (m.filter (fun e => !containsMatch c.Excludes (dirPath e.2))))) := by
    rw [getProtoFileSetForBucket, hc]
    simp only []
    rw [hw]
    simp only []
    rw [hcol]
  constructor
  · intro hexc hm
    have hce : c.Excludes = [] := by
      obtain ⟨-, -, -, -, -, -, he⟩ := newConfig_ok hc
      rw [he, hexc, List.dedup_nil]
    rw [hunfold, hce, hm]
    simp
  · intro hexc hfil
    have hce : c.Excludes ≠ [] := by
      obtain ⟨-, -, -, -, -, -, he⟩ := newConfig_ok hc
      rw [he]
      simpa [List.dedup_eq_nil] using hexc
    have hb : c.Excludes.isEmpty = false := by
      simpa [List.isEmpty_iff] using hce
    rw [hunfold, hfil, hb]
    simp

/-- C4 witness: roots `proto` with exclude `proto/foo` over a bucket
containing only `proto/foo/a.proto` and `proto/foo/b.proto` fails with the
excludes-removed-everything error (and the no-excludes empty case yields
the other error on an empty bucket). -/
theorem c4_empty_result_errors_witness :
    getProtoFileSetForBucket
        ⟨[["proto", "foo", "a.proto"], ["proto", "foo", "b.proto"]], []⟩
        [["proto"]] [["proto", "foo"]] =
      .error .noFilesMatchRootsAndExcludes :=
  (c4_empty_result_errors
      ⟨[["proto", "foo", "a.proto"], ["proto", "foo", "b.proto"]], []⟩
      [["proto"]] [["proto", "foo"]] ⟨[["proto"]], [["proto", "foo"]]⟩
      [(["foo", "a.proto"], [["proto", "foo", "a.proto"]]),
       (["foo", "b.proto"], [["proto", "foo", "b.proto"]])]
      [(["foo", "a.proto"], ["proto", "foo", "a.proto"]),
       (["foo", "b.proto"], ["proto", "foo", "b.proto"])]
      (by rfl) (by rfl) (by rfl)).2 (by decide) (by rfl)

/-- C8: every Proto File Set successfully returned by either entry point
has a non-empty mapping whose logical-path keys are pairwise distinct;
empty or colliding resolutions yield errors instead of a set. -/
theorem c8_proto_file_set_invariant (bucket : Bucket)
    (roots excludes paths : List Path) (flag : Bool) (pfs : ProtoFileSet) :
    (getProtoFileSetForBucket bucket roots excludes = .ok pfs →
      pfs.mapping ≠ [] ∧ (pfs.mapping.map Prod.fst).Nodup) ∧
    ((getProtoFileSetForRealFilePaths bucket roots paths flag).1 = .ok pfs →
      pfs.mapping ≠ [] ∧ (pfs.mapping.map Prod.fst).Nodup) := by
  constructor
  · intro h
    rw [getProtoFileSetForBucket] at h
    cases hc : newConfig roots excludes with
    | error e =>
      rw [hc] at h
      simp at h
    | ok c =>
      rw [hc] at h
      simp only [] at h
      cases hw : walkAll bucket c.Roots [] with
      | error e =>
        rw [hw] at h
        simp at h
      | ok acc =>
        rw [hw] at h
        simp only [] at h
        cases hcol : collapse acc with
        | error e =>
          rw [hcol] at h
          simp at h
        | ok m =>
          rw [hcol] at h
          simp only [] at h
          have hndacc : (accKeys acc).Nodup :=
            @walkAll_preserves (fun a => (accKeys a).Nodup)
              (fun acc k v hv => nodup_accKeys_accInsert hv) bucket c.Roots [] acc hw
              (by simp [accKeys])
          have hndm : (m.map Prod.fst).Nodup := by
            rw [collapse_keys hcol]
            exact hndacc
          split at h
          · split at h
            · simp at h
            · next hemp =>
              simp only [Except.ok.injEq] at h
              subst h
              refine ⟨?_, hndm⟩
              show m ≠ []
              simpa [List.isEmpty_iff] using hemp
          · split at h
            · simp at h
            · next hemp =>
              simp only [Except.ok.injEq] at h
              subst h
              constructor
              · show m.filter _ ≠ []
                simpa [List.isEmpty_iff] using hemp
              · show ((m.filter _).map Prod.fst).Nodup
                exact hndm.sublist (List.Sublist.map Prod.fst (List.filter_sublist m))
  · intro h
    rw [getProtoFileSetForRealFilePaths] at h
    cases hc : newConfig roots [] with
    | error e =>
      rw [hc] at h
      simp at h
    | ok c =>
      rw [hc] at h
      simp only [] at h
      cases hnc : normalizeAndCheck bucket flag paths [] [] with
      | mk res tr =>
        rw [hnc] at h
        cases res with
        | error e => simp at h
        | ok seen =>
          simp only [] at h
          cases hb : buildRootFilePathMap c.Roots seen [] with
          | error e =>
            rw [hb] at h
            simp at h
          | ok m =>
            rw [hb] at h
            simp only [] at h
            split at h
            · simp at h
            · next hemp =>
              simp only [Except.ok.injEq] at h
              subst h
              refine ⟨?_, build_nodup hb (by simp)⟩
              show m ≠ []
              simpa [List.isEmpty_iff] using hemp

/-- C8 witness: both entry points at a concrete input yield sets with a
non-empty, key-distinct mapping. -/
theorem c8_proto_file_set_invariant_witness :
    ((⟨[["proto"]], [(["foo", "a.proto"], ["proto", "foo", "a.proto"]),
        (["foo", "b.proto"], ["proto", "foo", "b.proto"])]⟩ :
      ProtoFileSet).mapping ≠ [] ∧
     ((⟨[["proto"]], [(["foo", "a.proto"], ["proto", "foo", "a.proto"]),
        (["foo", "b.proto"], ["proto", "foo", "b.proto"])]⟩ :
      ProtoFileSet).mapping.map Prod.fst).Nodup) :=
  (c8_proto_file_set_invariant
      ⟨[["proto", "foo", "a.proto"], ["proto", "foo", "b.proto"]], []⟩
      [["proto"]] [] [] false
      ⟨[["proto"]], [(["foo", "a.proto"], ["proto", "foo", "a.proto"]),
        (["foo", "b.proto"], ["proto", "foo", "b.proto"])]⟩).1 (by rfl)


/-! ## Explicit-mode step lemmas -/

theorem ncheck_cons_ok {bucket : Bucket} {flag : Bool} {p : Path}
    {rest seen tr : List Path} (hp : validPath p = true) (hnseen : p ∉ seen)
    (hns : p ∉ bucket.statFailures) (hf : p ∈ bucket.files) :
    normalizeAndCheck bucket flag (p :: rest) seen tr =
      normalizeAndCheck bucket flag rest (seen ++ [p]) (tr ++ [p]) := by
  rw [normalizeAndCheck, normalizeAndValidate, if_pos hp]
  simp only []
  rw [if_neg hnseen, if_neg hns, if_pos hf]

theorem ncheck_cons_missing_tolerant {bucket : Bucket} {p : Path}
    {rest seen tr : List Path} (hp : validPath p = true) (hnseen : p ∉ seen)
    (hns : p ∉ bucket.statFailures) (hf : p ∉ bucket.files) :
    normalizeAndCheck bucket true (p :: rest) seen tr =
      normalizeAndCheck bucket true rest seen (tr ++ [p]) := by
  rw [normalizeAndCheck, normalizeAndValidate, if_pos hp]
  simp only []
  rw [if_neg hnseen, if_neg hns, if_neg hf]
  simp

theorem ncheck_cons_missing_fatal {bucket : Bucket} {p : Path}
    {rest seen tr : List Path} (hp : validPath p = true) (hnseen : p ∉ seen)
    (hns : p ∉ bucket.statFailures) (hf : p ∉ bucket.files) :
    normalizeAndCheck bucket false (p :: rest) seen tr =
      (.error (.notExist p), tr ++ [p]) := by
  rw [normalizeAndCheck, normalizeAndValidate, if_pos hp]
  simp only []
  rw [if_neg hnseen, if_neg hns, if_neg hf, if_neg (by simp)]

theorem ncheck_cons_statFailure {bucket : Bucket} {flag : Bool} {p : Path}
    {rest seen tr : List Path} (hp : validPath p = true) (hnseen : p ∉ seen)
    (hs : p ∈ bucket.statFailures) :
    normalizeAndCheck bucket flag (p :: rest) seen tr =
      (.error (.statFailure p), tr ++ [p]) := by
  rw [normalizeAndCheck, normalizeAndValidate, if_pos hp]
  simp only []
  rw [if_neg hnseen, if_pos hs]

theorem ncheck_cons_dup {bucket : Bucket} {flag : Bool} {p : Path}
    {rest seen tr : List Path} (hp : validPath p = true) (hseen : p ∈ seen) :
    normalizeAndCheck bucket flag (p :: rest) seen tr =
      (.error (.duplicatePath p), tr) := by
  rw [normalizeAndCheck, normalizeAndValidate, if_pos hp]
  simp only []
  rw [if_pos hseen]

theorem underPath_of_matchingRoots {croots : List Path} {p r : Path}
    (hmatch : matchingRoots croots p = [r]) : underPath r p = true := by
  have hmem : r ∈ matchingRoots croots p := by
    rw [hmatch]
    simp
  rw [matchingRoots] at hmem
  exact (List.mem_filter.1 hmem).2

theorem build_cons_ok {croots : List Path} {p : Path} {rest : List Path}
    {m : List (Path × Path)} {r : Path}
    (hmatch : matchingRoots croots p = [r])
    (hq : validPath (p.drop r.length) = true)
    (hlook : lookupPath (p.drop r.length) m = none) :
    buildRootFilePathMap croots (p :: rest) m =
      buildRootFilePathMap croots rest (m ++ [(p.drop r.length, p)]) := by
  rw [buildRootFilePathMap, hmatch]
  simp only []
  rw [rel, if_pos (underPath_of_matchingRoots hmatch)]
  simp only []
  rw [normalizeAndValidate, if_pos hq]
  simp only []
  rw [hlook]

theorem build_cons_collision {croots : List Path} {p : Path} {rest : List Path}
    {m : List (Path × Path)} {r other : Path}
    (hmatch : matchingRoots croots p = [r])
    (hq : validPath (p.drop r.length) = true)
    (hlook : lookupPath (p.drop r.length) m = some other) :
    buildRootFilePathMap croots (p :: rest) m =
      .error (.withinAnotherRoot p (p.drop r.length) other) := by
  rw [buildRootFilePathMap, hmatch]
  simp only []
  rw [rel, if_pos (underPath_of_matchingRoots hmatch)]
  simp only []
  rw [normalizeAndValidate, if_pos hq]
  simp only []
  rw [hlook]

/-- Unfolding of `getProtoFileSetForRealFilePaths` after a successful
normalize/stat loop. -/
theorem gpfsr_eq {bucket : Bucket} {roots paths : List Path} {flag : Bool}
    {c : Config} {seen tr : List Path}
    (hc : newConfig roots [] = .ok c)
    (hnc : normalizeAndCheck bucket flag paths [] [] = (.ok seen, tr)) :
    getProtoFileSetForRealFilePaths bucket roots paths flag =
      match buildRootFilePathMap c.Roots seen [] with
      | .error e => (.error e, tr)
      | .ok m =>
        if m.isEmpty then (.error .noInputFilesSpecified, tr)
        else (.ok (newProtoFileSet c.Roots m), tr) := by
  rw [getProtoFileSetForRealFilePaths, hc]
  simp only []
  rw [hnc]

/-- Unfolding of `getProtoFileSetForRealFilePaths` after a failed
normalize/stat loop. -/
theorem gpfsr_eq_err {bucket : Bucket} {roots paths : List Path} {flag : Bool}
    {c : Config} {e : BufError} {tr : List Path}
    (hc : newConfig roots [] = .ok c)
    (hnc : normalizeAndCheck bucket flag paths [] [] = (.error e, tr)) :
    getProtoFileSetForRealFilePaths bucket roots paths flag = (.error e, tr) := by
  rw [getProtoFileSetForRealFilePaths, hc]
  simp only []
  rw [hnc]


/-- C5 (amended): an explicit file list whose earlier portion is processed
successfully and records a path `p` (which therefore existed and was
stat-checked) fails with the duplicate-path error as soon as `p` recurs;
the Stat trace stays exactly that of the earlier portion, so the duplicate
occurrence itself is never stat-checked and later entries are not
processed. -/
theorem c5_duplicate_path (bucket : Bucket) (roots : List Path) (c : Config)
    (front rest : List Path) (p : Path) (flag : Bool) (seen tr : List Path)
    (hc : newConfig roots [] = .ok c)
    (hfront : normalizeAndCheck bucket flag front [] [] = (.ok seen, tr))
    (hp : validPath p = true) (hseen : p ∈ seen) :
    getProtoFileSetForRealFilePaths bucket roots (front ++ p :: rest) flag =
      (.error (.duplicatePath p), tr) := by
  have hstep : normalizeAndCheck bucket flag (front ++ p :: rest) [] [] =
      (.error (.duplicatePath p), tr) := by
    rw [ncheck_append (p :: rest) hfront]
    exact ncheck_cons_dup hp hseen
  exact gpfsr_eq_err hc hstep

/-- C5 counterexample: for the claim's own input
`["proto/foo/a.proto", "proto/foo/a.proto"]` over a bucket containing the
file, the call does fail with the duplicate-path error, but the Stat trace
is non-empty — one Stat call (for the first occurrence) was made before
the duplicate was detected, contradicting "no Stat call is made". -/
theorem c5_duplicate_path_counterexample :
    getProtoFileSetForRealFilePaths
        ⟨[["proto", "foo", "a.proto"], ["proto", "foo", "b.proto"]], []⟩
        [["proto"]]
        [["proto", "foo", "a.proto"], ["proto", "foo", "a.proto"]] false =
      (.error (.duplicatePath ["proto", "foo", "a.proto"]),
        [["proto", "foo", "a.proto"]]) ∧
    (getProtoFileSetForRealFilePaths
        ⟨[["proto", "foo", "a.proto"], ["proto", "foo", "b.proto"]], []⟩
        [["proto"]]
        [["proto", "foo", "a.proto"], ["proto", "foo", "a.proto"]] false).2 ≠
      ([] : List Path) :=
  ⟨by rfl, by decide⟩

/-- C5 witness: the amended theorem applied at the claim's concrete input:
the second occurrence triggers the duplicate error after exactly one Stat
call, on the first occurrence. -/
theorem c5_duplicate_path_witness :
    getProtoFileSetForRealFilePaths
        ⟨[["proto", "foo", "a.proto"], ["proto", "foo", "b.proto"]], []⟩
        [["proto"]]
        ([["proto", "foo", "a.proto"]] ++ ["proto", "foo", "a.proto"] :: []) false =
      (.error (.duplicatePath ["proto", "foo", "a.proto"]),
        [["proto", "foo", "a.proto"]]) :=
  c5_duplicate_path
    ⟨[["proto", "foo", "a.proto"], ["proto", "foo", "b.proto"]], []⟩
    [["proto"]] ⟨[["proto"]], []⟩
    [["proto", "foo", "a.proto"]] [] ["proto", "foo", "a.proto"] false
    [["proto", "foo", "a.proto"]] [["proto", "foo", "a.proto"]]
    (by rfl) (by rfl) (by decide) (by decide)

/-- C7 (amended): in explicit mode, a logical path already claimed by a
different real path makes the call fail with the collision error that
names the new real path, its logical path, and the previously claimed real
path — the `withinAnotherRoot` shape, which differs from the root-scan
collision error's `multipleRoots` shape and carries no sorted list. -/
theorem c7_explicit_collision (bucket : Bucket) (roots : List Path) (c : Config)
    (paths : List Path) (flag : Bool) (seen tr s₁ s₂ : List Path)
    (p r other : Path) (m : List (Path × Path))
    (hc : newConfig roots [] = .ok c)
    (hnc : normalizeAndCheck bucket flag paths [] [] = (.ok seen, tr))
    (hsplit : seen = s₁ ++ p :: s₂)
    (hbuild : buildRootFilePathMap c.Roots s₁ [] = .ok m)
    (hmatch : matchingRoots c.Roots p = [r])
    (hq : validPath (p.drop r.length) = true)
    (hlook : lookupPath (p.drop r.length) m = some other) :
    (getProtoFileSetForRealFilePaths bucket roots paths flag).1 =
      .error (.withinAnotherRoot p (p.drop r.length) other) := by
  rw [gpfsr_eq hc hnc, hsplit, build_append (p :: s₂) hbuild,
    build_cons_collision hmatch hq hlook]

/-- C7 counterexample: a collision between explicit entries of two roots
fails with the `withinAnotherRoot` error, which is not of the root-scan
collision shape `multipleRoots` — so the message shape is not "the same
collision error shape as 4.2 step 4" and lists no sorted path list. -/
theorem c7_explicit_collision_counterexample :
    (getProtoFileSetForRealFilePaths ⟨[["a", "x.proto"], ["b", "x.proto"]], []⟩
        [["a"], ["b"]] [["a", "x.proto"], ["b", "x.proto"]] false).1 =
      .error (.withinAnotherRoot ["b", "x.proto"] ["x.proto"] ["a", "x.proto"]) ∧
    isMultipleRootsError
      (getProtoFileSetForRealFilePaths ⟨[["a", "x.proto"], ["b", "x.proto"]], []⟩
        [["a"], ["b"]] [["a", "x.proto"], ["b", "x.proto"]] false).1 = false :=
  ⟨by rfl, by rfl⟩

/-- C7 witness: the amended theorem applied at the concrete collision. -/
theorem c7_explicit_collision_witness :
    (getProtoFileSetForRealFilePaths ⟨[["a", "x.proto"], ["b", "x.proto"]], []⟩
        [["a"], ["b"]] [["a", "x.proto"], ["b", "x.proto"]] false).1 =
      .error (.withinAnotherRoot ["b", "x.proto"] ["x.proto"] ["a", "x.proto"]) :=
  c7_explicit_collision ⟨[["a", "x.proto"], ["b", "x.proto"]], []⟩
    [["a"], ["b"]] ⟨[["a"], ["b"]], []⟩
    [["a", "x.proto"], ["b", "x.proto"]] false
    [["a", "x.proto"], ["b", "x.proto"]] [["a", "x.proto"], ["b", "x.proto"]]
    [["a", "x.proto"]] [] ["b", "x.proto"] ["b"] ["a", "x.proto"]
    [(["x.proto"], ["a", "x.proto"])]
    (by rfl) (by rfl) (by rfl) (by rfl) (by rfl) (by decide) (by rfl)

/-- C6: explicit paths `[a, b]` where `b` does not exist: with tolerance
the result maps only `a`; without tolerance the call fails with the
not-exists error; and a path with a Stat failure other than not-exists
fails the call whatever the flag. -/
theorem c6_missing_file_tolerance (bucket : Bucket) (roots : List Path) (c : Config)
    (a b r : Path)
    (hc : newConfig roots [] = .ok c)
    (hr : r ∈ c.Roots) (hra : underPath r a = true) (hner : a ≠ r)
    (hva : validPath a = true) (ha : a ∈ bucket.files) (hsa : a ∉ bucket.statFailures)
    (hvb : validPath b = true) (hbne : b ∉ bucket.files) (hbs : b ∉ bucket.statFailures)
    (hab : a ≠ b) :
    ((getProtoFileSetForRealFilePaths bucket roots [a, b] true).1 =
        .ok (newProtoFileSet c.Roots [(a.drop r.length, a)])) ∧
    ((getProtoFileSetForRealFilePaths bucket roots [a, b] false).1 =
        .error (.notExist b)) ∧
    (∀ (front : List Path) (p : Path) (rest : List Path) (flag : Bool)
        (seen tr : List Path),
      normalizeAndCheck bucket flag front [] [] = (.ok seen, tr) →
      validPath p = true → p ∉ seen → p ∈ bucket.statFailures →
      (getProtoFileSetForRealFilePaths bucket roots (front ++ p :: rest) flag).1 =
        .error (.statFailure p)) := by
  obtain ⟨-, -, hov, hnd, -, -, -⟩ := newConfig_ok hc
  have hmatch : matchingRoots c.Roots a = [r] :=
    matchingRoots_eq_singleton hnd hov hr hra
  refine ⟨?_, ?_, ?_⟩
  · have hnc : normalizeAndCheck bucket true [a, b] [] [] = (.ok [a], [a, b]) := by
      rw [ncheck_cons_ok hva (by simp) hsa ha]
      rw [ncheck_cons_missing_tolerant hvb (by simp [Ne.symm hab]) hbs hbne]
      rw [normalizeAndCheck]
      simp
    rw [gpfsr_eq hc hnc]
    rw [build_cons_ok hmatch (validPath_drop hva hra hner)
      (show lookupPath (a.drop r.length) ([] : List (Path × Path)) = none from rfl)]
    rw [buildRootFilePathMap]
    simp
  · have hnc : normalizeAndCheck bucket false [a, b] [] [] =
        (.error (.notExist b), [a, b]) := by
      rw [ncheck_cons_ok hva (by simp) hsa ha]
      rw [ncheck_cons_missing_fatal hvb (by simp [Ne.symm hab]) hbs hbne]
      simp
    rw [gpfsr_eq_err hc hnc]
  · intro front p rest flag seen tr hfr hp hnseen hps
    have hnc : normalizeAndCheck bucket flag (front ++ p :: rest) [] [] =
        (.error (.statFailure p), tr ++ [p]) := by
      rw [ncheck_append (p :: rest) hfr]
      exact ncheck_cons_statFailure hp hnseen hps
    rw [gpfsr_eq_err hc hnc]

/-- C6 witness: over a bucket holding only `proto/foo/a.proto` and failing
Stat on `proto/bad.proto`, tolerance keeps `a.proto` alone, intolerance
fails on `b.proto`, and the Stat failure is fatal. -/
theorem c6_missing_file_tolerance_witness :
    ((getProtoFileSetForRealFilePaths
        ⟨[["proto", "foo", "a.proto"]], [["proto", "bad.proto"]]⟩ [["proto"]]
        [["proto", "foo", "a.proto"], ["proto", "foo", "b.proto"]] true).1 =
      .ok (newProtoFileSet [["proto"]]
        [(["foo", "a.proto"], ["proto", "foo", "a.proto"])])) ∧
    ((getProtoFileSetForRealFilePaths
        ⟨[["proto", "foo", "a.proto"]], [["proto", "bad.proto"]]⟩ [["proto"]]
        [["proto", "foo", "a.proto"], ["proto", "foo", "b.proto"]] false).1 =
      .error (.notExist ["proto", "foo", "b.proto"])) ∧
    ((getProtoFileSetForRealFilePaths
        ⟨[["proto", "foo", "a.proto"]], [["proto", "bad.proto"]]⟩ [["proto"]]
        ([] ++ ["proto", "bad.proto"] :: []) true).1 =
      .error (.statFailure ["proto", "bad.proto"])) := by
  have h := c6_missing_file_tolerance
    ⟨[["proto", "foo", "a.proto"]], [["proto", "bad.proto"]]⟩ [["proto"]]
    ⟨[["proto"]], []⟩ ["proto", "foo", "a.proto"] ["proto", "foo", "b.proto"]
    ["proto"] (by rfl) (by decide) (by decide) (by decide) (by decide) (by decide)
    (by decide) (by decide) (by decide) (by decide) (by decide)
  exact ⟨h.1, h.2.1,
    h.2.2 [] ["proto", "bad.proto"] [] true [] [] (by rfl) (by decide) (by decide)
      (by decide)⟩

/-- C10: with tolerance enabled, a nonexistent path occurring twice does
not trigger the duplicate-path error — only paths that existed are
recorded for duplicate detection — and both occurrences are silently
dropped: the resolution result equals that of the list without them. -/
theorem c10_duplicate_nonexistent_tolerated (bucket : Bucket) (roots : List Path)
    (b : Path) (rest : List Path)
    (hb : validPath b = true) (hnf : b ∉ bucket.files)
    (hns : b ∉ bucket.statFailures) :
    (getProtoFileSetForRealFilePaths bucket roots (b :: b :: rest) true).1 =
      (getProtoFileSetForRealFilePaths bucket roots rest true).1 := by
  rw [getProtoFileSetForRealFilePaths, getProtoFileSetForRealFilePaths]
  cases hc : newConfig roots [] with
  | error e => rfl
  | ok c =>
    simp only []
    rw [ncheck_cons_missing_tolerant hb (by simp) hns hnf,
      ncheck_cons_missing_tolerant hb (by simp) hns hnf]
    have htr : (normalizeAndCheck bucket true rest []
          ((([] : List Path) ++ [b]) ++ [b])).1 =
        (normalizeAndCheck bucket true rest [] []).1 := ncheck_fst_trace _ _
    cases hL : normalizeAndCheck bucket true rest [] ((([] : List Path) ++ [b]) ++ [b]) with
    | mk resL trL =>
      cases hR : normalizeAndCheck bucket true rest [] [] with
      | mk resR trR =>
        rw [hL, hR] at htr
        simp only [] at htr
        subst htr
        cases resL with
        | error e => rfl
        | ok seen =>
          simp only []
          cases hB : buildRootFilePathMap c.Roots seen [] with
          | error e => rfl
          | ok m =>
            simp only []
            by_cases hm : m.isEmpty
            · rw [if_pos hm, if_pos hm]
            · rw [if_neg hm, if_neg hm]

/-- C10 witness: the nonexistent `proto/foo/b.proto` listed twice with
tolerance gives the same result as not listing it at all. -/
theorem c10_duplicate_nonexistent_tolerated_witness :
    (getProtoFileSetForRealFilePaths ⟨[["proto", "foo", "a.proto"]], []⟩ [["proto"]]
        [["proto", "foo", "b.proto"], ["proto", "foo", "b.proto"],
         ["proto", "foo", "a.proto"]] true).1 =
      (getProtoFileSetForRealFilePaths ⟨[["proto", "foo", "a.proto"]], []⟩ [["proto"]]
        [["proto", "foo", "a.proto"]] true).1 :=
  c10_duplicate_nonexistent_tolerated ⟨[["proto", "foo", "a.proto"]], []⟩
    [["proto"]] ["proto", "foo", "b.proto"] [["proto", "foo", "a.proto"]]
    (by decide) (by decide) (by decide)


end BufBuild
